import Mathlib

/-!
Verification of the Connect-Four game core of `src/connect4.py`
(class `Connect4Game`): board representation, move legality, win and
draw detection, the heuristic evaluator, the minimax search with
alpha-beta pruning, and the AI move selector.

The Python board `self.board` is a 6-row by 7-column list of lists of
ints (row 0 is the top row); it is embedded as `Board := List (List Nat)`
together with the well-formedness predicate `WFBoard`.  The in-place
mutation performed by `drop_piece` / `undo_move` is embedded by explicit
state passing: `minimax` returns the board it leaves behind alongside
the `(score, column)` pair, exactly mirroring the order of mutations in
the source.  Python's `math.inf` / `-math.inf` scores are embedded by
the three-constructor type `XInt`.
-/

namespace Connect4

/-- Cell value constants from the source (`EMPTY = 0`). -/
def EMPTY : Nat := 0

/-- Player 1 identifier from the source (`PLAYER1 = 1`). -/
def PLAYER1 : Nat := 1

/-- Player 2 identifier from the source (`PLAYER2 = 2`). -/
def PLAYER2 : Nat := 2

/-- The board: a list of rows (row 0 = top), each a list of cells. -/
abbrev Board := List (List Nat)

/-- Read cell `(r, c)`; out-of-range reads return `EMPTY` (they never
occur on well-formed boards at in-range indices). -/
def getCell (b : Board) (r c : Nat) : Nat :=
  (b.getD r []).getD c EMPTY

/-- Write cell `(r, c)`; out-of-range writes are no-ops (they never
occur on well-formed boards at in-range indices). -/
def setCell (b : Board) (r c : Nat) (v : Nat) : Board :=
  b.set r ((b.getD r []).set c v)

/-- Well-formedness: 6 rows of 7 cells, as built by `__init__`/`reset_game`. -/
def WFBoard (b : Board) : Prop :=
  b.length = 6 ∧ ∀ row ∈ b, row.length = 7

instance : DecidablePred WFBoard := fun b => by
  unfold WFBoard; infer_instance

/-- The spec's Board invariant: within any column, no cell is occupied
while the cell directly below it is empty. -/
def ContigBoard (b : Board) : Prop :=
  ∀ c, c < 7 → ∀ r, r < 5 → getCell b r c ≠ EMPTY → getCell b (r + 1) c ≠ EMPTY

instance : DecidablePred ContigBoard := fun b => by
  unfold ContigBoard; infer_instance

/-- Source method `Connect4Game.is_valid_move`: the top cell of the column is empty.
(The source performs no range check; this is the in-range reading used
by `minimax`, which only passes columns 0..6.  The raw Python indexing
behaviour on arbitrary ints is modelled by `is_valid_move_py` below.) -/
def is_valid_move (b : Board) (col : Nat) : Bool :=
  getCell b 0 col == EMPTY

/-- Source method `Connect4Game.drop_piece`: scan rows 5,4,...,0 for the first empty
cell in the column, set it to `player`, and return its row; if the
column is full, fall through returning `None` with the board unchanged. -/
def drop_piece (b : Board) (col : Nat) (player : Nat) : Option Nat × Board :=
  match (List.range 6).reverse.find? (fun r => getCell b r col == EMPTY) with
  | some r => (some r, setCell b r col player)
  | none => (none, b)

/-- Source method `Connect4Game.undo_move`: scan rows 0,...,5 for the first non-empty
cell in the column and clear it; no-op if the column is empty. -/
def undo_move (b : Board) (col : Nat) : Board :=
  match (List.range 6).find? (fun r => !(getCell b r col == EMPTY)) with
  | some r => setCell b r col EMPTY
  | none => b

/-- Source method `Connect4Game.check_win`: four-in-a-row in any of the four
orientations scanned by the source. -/
def check_win (b : Board) (player : Nat) : Bool :=
  ((List.range 6).any fun row => (List.range 4).any fun col =>
    (List.range 4).all fun i => getCell b row (col + i) == player) ||
  ((List.range 3).any fun row => (List.range 7).any fun col =>
    (List.range 4).all fun i => getCell b (row + i) col == player) ||
  ((List.range 3).any fun row => (List.range 4).any fun col =>
    (List.range 4).all fun i => getCell b (row + i) (col + i) == player) ||
  ((List.range' 3 3).any fun row => (List.range 4).any fun col =>
    (List.range 4).all fun i => getCell b (row - i) (col + i) == player)

/-- Source method `Connect4Game.is_board_full`: every top-row cell is occupied. -/
def is_board_full (b : Board) : Bool :=
  (List.range 7).all fun col => !(getCell b 0 col == EMPTY)

/-- The window scorer `evaluate_window` nested in `evaluate_board`. -/
def evaluate_window (w : List Nat) : Int :=
  let player2_count := w.count PLAYER2
  let player1_count := w.count PLAYER1
  if player2_count > 0 ∧ player1_count > 0 then 0
  else if player2_count = 4 then 10000
  else if player2_count = 3 then 100
  else if player2_count = 2 then 10
  else if player2_count = 1 then 1
  else if player1_count = 4 then -10000
  else if player1_count = 3 then -200
  else if player1_count = 2 then -10
  else if player1_count = 1 then -1
  else 0

/-- Coordinates of the windows scanned by `evaluate_board`, in source
order: horizontal, vertical, diagonal (down-right), diagonal (up-right). -/
def all_windows : List (List (Nat × Nat)) :=
  ((List.range 6).flatMap fun row => (List.range 4).map fun col =>
    (List.range 4).map fun i => (row, col + i)) ++
  ((List.range 3).flatMap fun row => (List.range 7).map fun col =>
    (List.range 4).map fun i => (row + i, col)) ++
  ((List.range 3).flatMap fun row => (List.range 4).map fun col =>
    (List.range 4).map fun i => (row + i, col + i)) ++
  ((List.range' 3 3).flatMap fun row => (List.range 4).map fun col =>
    (List.range 4).map fun i => (row - i, col + i))

/-- Source method `Connect4Game.evaluate_board`: sum of window scores plus the
center-column control bonus (`center_count * 3`). -/
def evaluate_board (b : Board) : Int :=
  (all_windows.map fun w =>
    evaluate_window (w.map fun z => getCell b z.1 z.2)).sum +
  ((List.range 6).map fun row =>
    if getCell b row 3 = PLAYER2 then (1 : Int)
    else if getCell b row 3 = PLAYER1 then -1 else 0).sum * 3

/-- Scores as used in `minimax`: integers extended with Python's
`-math.inf` / `math.inf`. -/
inductive XInt : Type
  | negInf : XInt
  | fin : Int → XInt
  | posInf : XInt
deriving DecidableEq, Repr

/-- Strict comparison on `XInt` (Python `<` / `>` between floats and ints). -/
def XInt.blt : XInt → XInt → Bool
  | .negInf, .negInf => false
  | .negInf, _ => true
  | .fin _, .negInf => false
  | .fin m, .fin n => m < n
  | .fin _, .posInf => true
  | .posInf, _ => false

/-- Non-strict comparison on `XInt` (Python `<=` / `>=`). -/
def XInt.ble : XInt → XInt → Bool
  | .negInf, _ => true
  | .fin _, .negInf => false
  | .fin m, .fin n => m ≤ n
  | .fin _, .posInf => true
  | .posInf, .posInf => true
  | .posInf, _ => false

/-- Center-first column exploration order from `minimax`. -/
def cols_order : List Nat := [3, 2, 4, 1, 5, 0, 6]

/-- The maximizing loop of `minimax` (the `for col in cols_order` loop of
the `maximizing_player` branch), with the recursive call abstracted as
`child` (which receives the board after the simulated drop and the
current `alpha`, and returns its result together with the board it
leaves behind).  The board is threaded to mirror the in-place
`drop_piece` / `undo_move` mutation. -/
def maxLoop (child : Board → XInt → (XInt × Option Nat) × Board)
    (beta : XInt) :
    Board → List Nat → XInt → XInt → Option Nat → (XInt × Option Nat) × Board
  | b, [], _, max_eval, best_col => ((max_eval, best_col), b)
  | b, c :: rest, alpha, max_eval, best_col =>
    if is_valid_move b c then
      let b1 := (drop_piece b c PLAYER2).2
      let res := child b1 alpha
      let b2 := undo_move res.2 c
      let eval_val := res.1.1
      let max2 := if max_eval.blt eval_val then eval_val else max_eval
      let best2 := if max_eval.blt eval_val then some c else best_col
      let alpha2 := if alpha.blt eval_val then eval_val else alpha
      if beta.ble alpha2 then ((max2, best2), b2)
      else maxLoop child beta b2 rest alpha2 max2 best2
    else maxLoop child beta b rest alpha max_eval best_col

/-- The minimizing loop of `minimax` (the `else` branch), with the
recursive call abstracted as `child` (which receives the board after the
simulated drop and the current `beta`). -/
def minLoop (child : Board → XInt → (XInt × Option Nat) × Board)
    (alpha : XInt) :
    Board → List Nat → XInt → XInt → Option Nat → (XInt × Option Nat) × Board
  | b, [], _, min_eval, best_col => ((min_eval, best_col), b)
  | b, c :: rest, beta, min_eval, best_col =>
    if is_valid_move b c then
      let b1 := (drop_piece b c PLAYER1).2
      let res := child b1 beta
      let b2 := undo_move res.2 c
      let eval_val := res.1.1
      let min2 := if eval_val.blt min_eval then eval_val else min_eval
      let best2 := if eval_val.blt min_eval then some c else best_col
      let beta2 := if eval_val.blt beta then eval_val else beta
      if beta2.ble alpha then ((min2, best2), b2)
      else minLoop child alpha b2 rest beta2 min2 best2
    else minLoop child alpha b rest beta min_eval best_col

/-- Source method `Connect4Game.minimax`: terminal checks in source order (maximizer
win, minimizer win, draw, depth 0), then the alpha-beta loops over
`cols_order`.  Returns `((score, best_column), board_left_behind)`. -/
def minimax : Nat → Board → XInt → XInt → Bool → (XInt × Option Nat) × Board
  | depth, b, alpha, beta, maximizing_player =>
    if check_win b PLAYER2 then ((.fin (999999999 + depth), none), b)
    else if check_win b PLAYER1 then ((.fin (-999999999 - depth), none), b)
    else if is_board_full b then ((.fin 0, none), b)
    else
      match depth with
      | 0 => ((.fin (evaluate_board b), none), b)
      | d + 1 =>
        if maximizing_player then
          maxLoop (fun b1 a1 => minimax d b1 a1 beta false) beta
            b cols_order alpha .negInf none
        else
          minLoop (fun b1 bt => minimax d b1 alpha bt true) alpha
            b cols_order beta .posInf none

/-- Python list-index resolution: negative indices count from the end,
resolved indices outside the list raise `IndexError` (modelled as `none`). -/
def pyResolve (n : Nat) (i : Int) : Option Nat :=
  let j := if i < 0 then i + n else i
  if 0 ≤ j ∧ j < n then some j.toNat else none

/-- Python list subscript `l[i]` with full Python semantics. -/
def pyGet {α : Type} (l : List α) (i : Int) : Option α :=
  match pyResolve l.length i with
  | some j => l[j]?
  | none => none

/-- Source method `Connect4Game.is_valid_move` with raw Python indexing semantics on an
arbitrary integer column: `self.board[0][col] == EMPTY` (`none` models an
`IndexError`). -/
def is_valid_move_py (b : Board) (col : Int) : Option Bool :=
  match pyGet b 0 with
  | some row => (pyGet row col).map (fun v => v == EMPTY)
  | none => none

/-- The row scan of `drop_piece` with raw Python indexing semantics:
each iteration evaluates `self.board[row][col] == EMPTY` (raising
`IndexError` for an unresolvable `col`, modelled as `none`) and on
success assigns the cell and returns the row. -/
def drop_piece_py_go (b : Board) (col : Int) (player : Nat) :
    List Nat → Option (Option Nat × Board)
  | [] => some (none, b)
  | r :: rest =>
    let row := b.getD r []
    match pyResolve row.length col with
    | none => none
    | some j =>
      if row.getD j EMPTY == EMPTY then some (some r, b.set r (row.set j player))
      else drop_piece_py_go b col player rest

/-- Source method `Connect4Game.drop_piece` with raw Python indexing semantics on an
arbitrary integer column: the loop `for row in range(5, -1, -1)` with a
fall-through `None` return when the column is full. -/
def drop_piece_py (b : Board) (col : Int) (player : Nat) :
    Option (Option Nat × Board) :=
  drop_piece_py_go b col player (List.range 6).reverse

/-- The difficulty keys of the `DIFFICULTY_LEVELS` dict. -/
inductive Difficulty : Type
  | easy : Difficulty
  | medium : Difficulty
  | hard : Difficulty
deriving DecidableEq, Repr

/-- Source dict `DIFFICULTY_LEVELS`: search depth per difficulty. -/
def DIFFICULTY_LEVELS : Difficulty → Nat
  | .easy => 2
  | .medium => 4
  | .hard => 7

/-- Abstract model of Python's global `random` module: `seed` builds the
generator state from a seed, `nextFloat` models `random.random()`, and
`choice` models `random.choice` on a non-empty list of columns.  The
concrete Mersenne-Twister stream is irrelevant to the claims, which
quantify over every implementation of this interface. -/
structure RandGen (σ : Type) where
  seed : Nat → σ
  nextFloat : σ → ℚ × σ
  choice : σ → List Nat → Nat × σ

/-- The iterative-deepening loop of `ai_move`
(`for d in range(1, depth + 1)`): before each iteration the elapsed
wall-clock time is checked (`oracle k` models the `k`-th `time.time()`
call; `start` is the value read at entry), a timeout breaks out of the
loop; otherwise `minimax` runs at depth `d` and a non-`None` column
overwrites `best_col`. -/
def id_go (oracle : Nat → ℤ) (start : ℤ) (maxim : Bool) :
    List Nat → Board → Option Nat → Option Nat × Board
  | [], b, best_col => (best_col, b)
  | d :: rest, b, best_col =>
    if 5 < oracle d - start then (best_col, b)
    else
      let r := minimax d b .negInf .posInf maxim
      id_go oracle start maxim rest r.2
        (if r.1.2.isSome then r.1.2 else best_col)

/-- Source method `Connect4Game.ai_move`: reads the clock, reseeds the global random
generator with the constant 42 (discarding the incoming state `s0`),
then either plays the easy-mode policy (30% random column among the
valid ones, otherwise a direct depth-2 search) or iterative deepening up
to the difficulty's depth under a 5-second budget.  Returns the chosen
column and the board left behind by the simulations. -/
def ai_move {σ : Type} (g : RandGen σ) (oracle : Nat → ℤ) (s0 : σ)
    (b : Board) (difficulty : Difficulty) (player : Nat) :
    Option Nat × Board :=
  let start := oracle 0
  let depth := DIFFICULTY_LEVELS difficulty
  let s := g.seed 42
  match difficulty with
  | .easy =>
    let valid_cols := (List.range 7).filter fun c => is_valid_move b c
    if valid_cols.isEmpty then (none, b)
    else
      let fs := g.nextFloat s
      if fs.1 < 3 / 10 then (some (g.choice fs.2 valid_cols).1, b)
      else
        let r := minimax depth b .negInf .posInf (player == PLAYER2)
        (r.1.2, r.2)
  | _ =>
    id_go oracle start (player == PLAYER2) (List.range' 1 depth) b none

/-- C1 counterexample board: column 3 violates the column-contiguity
invariant, so the drop/undo pair of the first explored column corrupts
the board mid-search. -/
def bC1x : Board :=
  [[0, 0, 0, 0, 0, 0, 0],
   [0, 0, 0, 1, 0, 0, 0],
   [0, 0, 0, 0, 0, 0, 0],
   [0, 2, 0, 0, 0, 0, 0],
   [0, 2, 0, 0, 2, 2, 0],
   [0, 2, 1, 2, 1, 1, 0]]

/-- A contiguous board one move away from a Player-Two win (column 1). -/
def bC1w : Board :=
  [[0, 0, 0, 0, 0, 0, 0],
   [0, 0, 0, 0, 0, 0, 0],
   [0, 0, 0, 0, 0, 0, 0],
   [0, 2, 0, 0, 0, 0, 0],
   [0, 2, 1, 0, 0, 0, 0],
   [0, 2, 1, 1, 0, 0, 0]]

/-- A board on which Player One has already won (vertical in column 0). -/
def bLoss : Board :=
  [[0, 0, 0, 0, 0, 0, 0],
   [0, 0, 0, 0, 0, 0, 0],
   [1, 0, 0, 0, 0, 0, 0],
   [1, 0, 0, 0, 0, 0, 0],
   [1, 2, 0, 0, 0, 0, 0],
   [1, 2, 2, 0, 0, 0, 0]]

/-- A board on which Player Two has already won (vertical in column 0). -/
def bWin : Board :=
  [[0, 0, 0, 0, 0, 0, 0],
   [0, 0, 0, 0, 0, 0, 0],
   [2, 0, 0, 0, 0, 0, 0],
   [2, 1, 0, 0, 0, 0, 0],
   [2, 1, 0, 0, 0, 0, 0],
   [2, 1, 0, 0, 0, 0, 0]]

/-- A well-formed board whose column 0 is full. -/
def bFullCol : Board :=
  [[1, 0, 0, 0, 0, 0, 0],
   [2, 0, 0, 0, 0, 0, 0],
   [1, 0, 0, 0, 0, 0, 0],
   [2, 0, 0, 0, 0, 0, 0],
   [1, 0, 0, 0, 0, 0, 0],
   [2, 0, 0, 0, 0, 0, 0]]

/-- The empty starting board. -/
def emptyBoard : Board :=
  List.replicate 6 (List.replicate 7 0)

/-- A board on which the depth-1 and depth-2 searches choose different
columns (2 versus 4), exposing the wall-clock dependence of the
iterative-deepening mode of `ai_move`. -/
def bC10 : Board :=
  [[1, 2, 0, 2, 0, 1, 1],
   [1, 2, 0, 1, 0, 1, 1],
   [2, 1, 0, 2, 0, 1, 2],
   [1, 2, 0, 2, 0, 2, 2],
   [1, 1, 0, 1, 0, 2, 2],
   [1, 2, 0, 2, 0, 2, 1]]

/-- Spec example: horizontal four for Player Two at (5,0)..(5,3). -/
def exH : Board :=
  [[0, 0, 0, 0, 0, 0, 0],
   [0, 0, 0, 0, 0, 0, 0],
   [0, 0, 0, 0, 0, 0, 0],
   [0, 0, 0, 0, 0, 0, 0],
   [0, 0, 0, 0, 0, 0, 0],
   [2, 2, 2, 2, 0, 0, 0]]

/-- Spec example: vertical four for Player Two at (5,0),(4,0),(3,0),(2,0). -/
def exV : Board :=
  [[0, 0, 0, 0, 0, 0, 0],
   [0, 0, 0, 0, 0, 0, 0],
   [2, 0, 0, 0, 0, 0, 0],
   [2, 0, 0, 0, 0, 0, 0],
   [2, 0, 0, 0, 0, 0, 0],
   [2, 0, 0, 0, 0, 0, 0]]

/-- Spec example: diagonal four for Player Two at (5,0),(4,1),(3,2),(2,3). -/
def exD1 : Board :=
  [[0, 0, 0, 0, 0, 0, 0],
   [0, 0, 0, 0, 0, 0, 0],
   [0, 0, 0, 2, 0, 0, 0],
   [0, 0, 2, 0, 0, 0, 0],
   [0, 2, 0, 0, 0, 0, 0],
   [2, 0, 0, 0, 0, 0, 0]]

/-- Spec example: anti-diagonal four for Player Two at (5,3),(4,2),(3,1),(2,0). -/
def exD2 : Board :=
  [[0, 0, 0, 0, 0, 0, 0],
   [0, 0, 0, 0, 0, 0, 0],
   [2, 0, 0, 0, 0, 0, 0],
   [0, 2, 0, 0, 0, 0, 0],
   [0, 0, 2, 0, 0, 0, 0],
   [0, 0, 0, 2, 0, 0, 0]]

/-- A trivial deterministic instance of the random-generator interface,
used to instantiate counterexamples. -/
def g0 : RandGen Unit where
  seed := fun _ => ()
  nextFloat := fun _ => (0, ())
  choice := fun _ l => (l.headD 0, ())

/-- Score bounded in the closed interval `[-Wd, Wd]` and finite. -/
abbrev BddFin (Wd : Int) (x : XInt) : Prop :=
  ∃ n : Int, x = .fin n ∧ -Wd ≤ n ∧ n ≤ Wd

/-- Column `c` is a legal move that completes four-in-a-row for
Player Two when played by Player Two. -/
abbrev winning_col (b : Board) (c : Nat) : Prop :=
  is_valid_move b c = true ∧ check_win (drop_piece b c PLAYER2).2 PLAYER2 = true

/-- Specification predicate for a win: four consecutive aligned cells
holding `player`, in one of the four orientations (horizontal, vertical,
the two diagonals). -/
def winSpec (b : Board) (player : Nat) : Prop :=
  (∃ r, r < 6 ∧ ∃ c, c < 4 ∧ ∀ i, i < 4 → getCell b r (c + i) = player) ∨
  (∃ r, r < 3 ∧ ∃ c, c < 7 ∧ ∀ i, i < 4 → getCell b (r + i) c = player) ∨
  (∃ r, r < 3 ∧ ∃ c, c < 4 ∧ ∀ i, i < 4 → getCell b (r + i) (c + i) = player) ∨
  (∃ r, 3 ≤ r ∧ r < 6 ∧ ∃ c, c < 4 ∧ ∀ i, i < 4 → getCell b (r - i) (c + i) = player)

/-! ### Basic lemmas about cell access and update -/

theorem list_set_getElem_self {α : Type} (l : List α) (i : Nat) (h : i < l.length) :
    l.set i l[i] = l := by
  apply List.ext_getElem?
  intro j
  rw [List.getElem?_set]
  split
  · next hij =>
    subst hij
    simp [h]
  · rfl

theorem getCell_setCell_ne {b : Board} {r c r' c' : Nat}
    (h : r' ≠ r ∨ c' ≠ c) (v : Nat) :
    getCell (setCell b r c v) r' c' = getCell b r' c' := by
  unfold getCell setCell
  simp only [List.getD_eq_getElem?_getD]
  by_cases hr : r = r'
  · subst hr
    have hc : c ≠ c' := by
      rcases h with h | h
      · exact absurd rfl h
      · exact fun hh => h hh.symm
    rw [List.getElem?_set]
    split
    · split
      · next hrb =>
        simp only [Option.getD_some]
        rw [List.getElem?_set_ne hc]
      · next hrb =>
        simp only [Option.getD_none]
        rw [List.getElem?_eq_none (l := b) (by omega)]
        simp
    · next hne => exact absurd rfl hne
  · rw [List.getElem?_set_ne hr]

theorem getCell_setCell_empty (b : Board) (r c : Nat) :
    getCell (setCell b r c EMPTY) r c = EMPTY := by
  unfold getCell setCell
  simp only [List.getD_eq_getElem?_getD]
  rw [List.getElem?_set]
  split
  · split
    · next hrb =>
      simp only [Option.getD_some]
      rw [List.getElem?_set]
      split
      · split
        · simp
        · simp [EMPTY]
      · next hne => exact absurd rfl hne
    · next hrb =>
      simp only [Option.getD_none]
      simp [EMPTY]
  · next hne => exact absurd rfl hne

theorem getCell_setCell_self {b : Board} {r c : Nat}
    (hwf : WFBoard b) (hr : r < 6) (hc : c < 7) (v : Nat) :
    getCell (setCell b r c v) r c = v := by
  obtain ⟨hlen, hrows⟩ := hwf
  have hrb : r < b.length := by omega
  have hrow : (b[r]?.getD []).length = 7 := by
    rw [List.getElem?_eq_getElem hrb, Option.getD_some]
    exact hrows _ (List.getElem_mem hrb)
  unfold getCell setCell
  simp only [List.getD_eq_getElem?_getD]
  rw [List.getElem?_set_self (by simpa using hrb), Option.getD_some,
    List.getElem?_set_self (by omega), Option.getD_some]

theorem setCell_getCell_self (b : Board) (r c : Nat) :
    setCell b r c (getCell b r c) = b := by
  unfold getCell setCell
  simp only [List.getD_eq_getElem?_getD]
  by_cases hrb : r < b.length
  · rw [List.getElem?_eq_getElem hrb]
    simp only [Option.getD_some]
    by_cases hcl : c < b[r].length
    · rw [List.getElem?_eq_getElem hcl]
      simp only [Option.getD_some]
      rw [list_set_getElem_self, list_set_getElem_self]
    · rw [List.set_eq_of_length_le (l := b[r]) (by omega), list_set_getElem_self]
  · rw [List.set_eq_of_length_le (by omega)]

theorem WFBoard_setCell {b : Board} (hwf : WFBoard b) (r c v : Nat) :
    WFBoard (setCell b r c v) := by
  obtain ⟨hlen, hrows⟩ := hwf
  by_cases hrb : r < b.length
  · refine ⟨by simp [setCell, hlen], ?_⟩
    intro row hrow
    rcases List.mem_or_eq_of_mem_set hrow with h | h
    · exact hrows _ h
    · subst h
      rw [List.length_set, List.getD_eq_getElem?_getD, List.getElem?_eq_getElem hrb,
        Option.getD_some]
      exact hrows _ (List.getElem_mem hrb)
  · unfold setCell
    rw [List.set_eq_of_length_le (by omega)]
    exact ⟨hlen, hrows⟩

theorem Board_ext {b1 b2 : Board} (h1 : WFBoard b1) (h2 : WFBoard b2)
    (h : ∀ r, r < 6 → ∀ c, c < 7 → getCell b1 r c = getCell b2 r c) : b1 = b2 := by
  obtain ⟨hl1, hr1⟩ := h1
  obtain ⟨hl2, hr2⟩ := h2
  apply List.ext_getElem (by omega)
  intro r hra hrb
  have hr6 : r < 6 := by omega
  have hlen1 : b1[r].length = 7 := hr1 _ (List.getElem_mem hra)
  have hlen2 : b2[r].length = 7 := hr2 _ (List.getElem_mem hrb)
  apply List.ext_getElem (by omega)
  intro c hca hcb
  have hc7 : c < 7 := by omega
  have := h r hr6 c hc7
  unfold getCell at this
  simp only [List.getD_eq_getElem?_getD] at this
  rwa [List.getElem?_eq_getElem hra, Option.getD_some,
    List.getElem?_eq_getElem hrb, Option.getD_some,
    List.getElem?_eq_getElem hca, Option.getD_some,
    List.getElem?_eq_getElem hcb, Option.getD_some] at this

/-! ### The column scans of drop_piece and undo_move -/

theorem find?_pairwise_gt {p : Nat → Bool} :
    ∀ {l : List Nat}, l.Pairwise (· > ·) → ∀ {r : Nat}, l.find? p = some r →
      p r = true ∧ r ∈ l ∧ ∀ x ∈ l, x > r → p x = false := by
  intro l
  induction l with
  | nil => intro _ r h; simp [List.find?] at h
  | cons a as ih =>
    intro hl r h
    rw [List.find?_cons] at h
    rcases hpa : p a with _ | _
    · rw [hpa] at h
      obtain ⟨h1, h2⟩ := List.pairwise_cons.mp hl
      obtain ⟨hr, hmem, hrest⟩ := ih h2 h
      refine ⟨hr, List.mem_cons_of_mem _ hmem, ?_⟩
      intro x hx hgt
      rcases List.mem_cons.mp hx with rfl | hx'
      · exact hpa
      · exact hrest x hx' hgt
    · rw [hpa] at h
      obtain rfl : a = r := by simpa using h
      refine ⟨hpa, List.mem_cons_self _ _, ?_⟩
      intro x hx hgt
      rcases List.mem_cons.mp hx with rfl | hx'
      · omega
      · obtain ⟨h1, _⟩ := List.pairwise_cons.mp hl
        have := h1 x hx'
        omega

theorem find?_pairwise_lt {p : Nat → Bool} :
    ∀ {l : List Nat}, l.Pairwise (· < ·) → ∀ {r : Nat}, l.find? p = some r →
      p r = true ∧ r ∈ l ∧ ∀ x ∈ l, x < r → p x = false := by
  intro l
  induction l with
  | nil => intro _ r h; simp [List.find?] at h
  | cons a as ih =>
    intro hl r h
    rw [List.find?_cons] at h
    rcases hpa : p a with _ | _
    · rw [hpa] at h
      obtain ⟨h1, h2⟩ := List.pairwise_cons.mp hl
      obtain ⟨hr, hmem, hrest⟩ := ih h2 h
      refine ⟨hr, List.mem_cons_of_mem _ hmem, ?_⟩
      intro x hx hlt
      rcases List.mem_cons.mp hx with rfl | hx'
      · exact hpa
      · exact hrest x hx' hlt
    · rw [hpa] at h
      obtain rfl : a = r := by simpa using h
      refine ⟨hpa, List.mem_cons_self _ _, ?_⟩
      intro x hx hlt
      rcases List.mem_cons.mp hx with rfl | hx'
      · omega
      · obtain ⟨h1, _⟩ := List.pairwise_cons.mp hl
        have := h1 x hx'
        omega

theorem find?_first {p : Nat → Bool} :
    ∀ (l : List Nat), l.Pairwise (· < ·) → ∀ r ∈ l, p r = true →
      (∀ x ∈ l, x < r → p x = false) → l.find? p = some r := by
  intro l
  induction l with
  | nil => intro _ r h; simp at h
  | cons a as ih =>
    intro hl r hmem hpr hbelow
    obtain ⟨h1, h2⟩ := List.pairwise_cons.mp hl
    rcases List.mem_cons.mp hmem with rfl | hmem'
    · exact List.find?_cons_of_pos _ hpr
    · have har : a < r := h1 r hmem'
      have hpa : p a = false := hbelow a (List.mem_cons_self _ _) har
      rw [List.find?_cons_of_neg _ (by simp [hpa])]
      exact ih h2 r hmem' hpr fun x hx hlt => hbelow x (List.mem_cons_of_mem _ hx) hlt

theorem range6_reverse : (List.range 6).reverse = [5, 4, 3, 2, 1, 0] := by decide

theorem range6_eq : List.range 6 = [0, 1, 2, 3, 4, 5] := by decide

theorem mem_range6_rev_iff {x : Nat} : x ∈ ([5, 4, 3, 2, 1, 0] : List Nat) ↔ x < 6 := by
  simp only [List.mem_cons, List.not_mem_nil, or_false]
  omega

theorem mem_range6_iff {x : Nat} : x ∈ ([0, 1, 2, 3, 4, 5] : List Nat) ↔ x < 6 := by
  simp only [List.mem_cons, List.not_mem_nil, or_false]
  omega

theorem drop_piece_some {b : Board} {c p r : Nat}
    (h : (drop_piece b c p).1 = some r) :
    r < 6 ∧ getCell b r c = EMPTY ∧
      (∀ r', r < r' → r' < 6 → getCell b r' c ≠ EMPTY) ∧
      (drop_piece b c p).2 = setCell b r c p := by
  unfold drop_piece at h ⊢
  rw [range6_reverse] at h ⊢
  rcases hf : List.find? (fun r => getCell b r c == EMPTY) [5, 4, 3, 2, 1, 0] with _ | r₀
  · rw [hf] at h
    simp at h
  · rw [hf] at h
    obtain rfl : r₀ = r := by simpa using h
    obtain ⟨hpr, hmem, hrest⟩ := find?_pairwise_gt (by decide) hf
    refine ⟨mem_range6_rev_iff.mp hmem, by simpa using hpr, ?_, rfl⟩
    intro r' hgt hlt
    have := hrest r' (mem_range6_rev_iff.mpr hlt) hgt
    simpa using this

theorem drop_piece_none {b : Board} {c p : Nat}
    (h : (drop_piece b c p).1 = none) : ∀ r, r < 6 → getCell b r c ≠ EMPTY := by
  unfold drop_piece at h
  rcases hf : (List.range 6).reverse.find? (fun r => getCell b r c == EMPTY) with _ | r₀
  · intro r hr
    rw [List.find?_eq_none] at hf
    have := hf r (by rw [range6_reverse]; exact mem_range6_rev_iff.mpr hr)
    simpa using this
  · rw [hf] at h
    simp at h

theorem drop_piece_none_board {b : Board} {c p : Nat}
    (h : (drop_piece b c p).1 = none) : (drop_piece b c p).2 = b := by
  unfold drop_piece at h ⊢
  rcases hf : (List.range 6).reverse.find? (fun r => getCell b r c == EMPTY) with _ | r₀
  · rfl
  · rw [hf] at h
    simp at h

theorem drop_piece_isSome {b : Board} {c : Nat} (p : Nat)
    (hv : getCell b 0 c = EMPTY) : ∃ r, (drop_piece b c p).1 = some r := by
  rcases hd : (drop_piece b c p).1 with _ | r
  · exact absurd hv (drop_piece_none hd 0 (by omega))
  · exact ⟨r, rfl⟩

theorem undo_move_eq_of {b : Board} {c r : Nat} (hr : r < 6)
    (hocc : getCell b r c ≠ EMPTY) (habove : ∀ x, x < r → getCell b x c = EMPTY) :
    undo_move b c = setCell b r c EMPTY := by
  unfold undo_move
  rw [range6_eq, find?_first _ (by decide) r (mem_range6_iff.mpr hr) (by simpa using hocc)
    (fun x hx hlt => by simpa using habove x hlt)]

theorem undo_move_empty_col {b : Board} {c : Nat}
    (h : ∀ r, r < 6 → getCell b r c = EMPTY) : undo_move b c = b := by
  unfold undo_move
  rw [range6_eq]
  rw [List.find?_eq_none.mpr]
  intro x hx
  simp [h x (mem_range6_iff.mp hx)]

theorem undo_move_spec (b : Board) (c : Nat) :
    undo_move b c = b ∨
      ∃ q, q < 6 ∧ getCell b q c ≠ EMPTY ∧ undo_move b c = setCell b q c EMPTY ∧
        ∀ x, x < q → getCell b x c = EMPTY := by
  unfold undo_move
  rcases hf : (List.range 6).find? (fun r => !(getCell b r c == EMPTY)) with _ | q
  · exact Or.inl rfl
  · right
    rw [range6_eq] at hf
    obtain ⟨hpq, hmem, hrest⟩ := find?_pairwise_lt (by decide) hf
    refine ⟨q, mem_range6_iff.mp hmem, by simpa using hpq, rfl, ?_⟩
    intro x hx
    have hx6 : x < 6 := by have := mem_range6_iff.mp hmem; omega
    have := hrest x (mem_range6_iff.mpr hx6) hx
    simpa using this

/-! ### Contiguity and the drop/undo interaction -/

theorem setCell_setCell (b : Board) (r c v w : Nat) :
    setCell (setCell b r c v) r c w = setCell b r c w := by
  by_cases hrb : r < b.length
  · unfold setCell
    rw [List.getD_eq_getElem?_getD (b.set r _),
      List.getElem?_set_self (by simpa using hrb), Option.getD_some,
      List.set_set, List.set_set]
  · have h1 : setCell b r c v = b := by
      unfold setCell
      exact List.set_eq_of_length_le (by omega)
    rw [h1]

theorem setCell_self_or (b : Board) (r c v : Nat) :
    getCell (setCell b r c v) r c = v ∨ setCell b r c v = b := by
  by_cases hrb : r < b.length
  · by_cases hcl : c < (b.getD r []).length
    · left
      unfold getCell setCell
      simp only [List.getD_eq_getElem?_getD] at hcl ⊢
      rw [List.getElem?_set_self (by simpa using hrb), Option.getD_some,
        List.getElem?_set_self hcl, Option.getD_some]
    · right
      unfold setCell
      rw [List.set_eq_of_length_le (l := b.getD r []) (by omega)]
      rw [List.getD_eq_getElem?_getD, List.getElem?_eq_getElem hrb, Option.getD_some]
      exact list_set_getElem_self b r hrb
  · right
    unfold setCell
    exact List.set_eq_of_length_le (by omega)

theorem contig_chain {b : Board} (hinv : ContigBoard b) {c : Nat} (hc : c < 7) :
    ∀ q r, q ≤ r → r < 6 → getCell b q c ≠ EMPTY → getCell b r c ≠ EMPTY := by
  intro q r hqr
  induction r, hqr using Nat.le_induction with
  | base => intro _ hq; exact hq
  | succ n hqn ih =>
    intro hn hq
    exact hinv c hc n (by omega) (ih (by omega) hq)

theorem rows_above_empty {b : Board} (hinv : ContigBoard b) {c r : Nat} (hc : c < 7)
    (hr : r < 6) (hre : getCell b r c = EMPTY) :
    ∀ q, q ≤ r → getCell b q c = EMPTY := by
  intro q hq
  by_contra hne
  exact contig_chain hinv hc q r hq hr hne hre

theorem drop_undo_id {b : Board} (hwf : WFBoard b) (hinv : ContigBoard b)
    {c p : Nat} (hc : c < 7) (hp : p ≠ EMPTY)
    (hne : ∃ r, r < 6 ∧ getCell b r c = EMPTY) :
    undo_move (drop_piece b c p).2 c = b := by
  obtain ⟨r0, hr0, hr0e⟩ := hne
  rcases hd : (drop_piece b c p).1 with _ | r
  · exact absurd hr0e (drop_piece_none hd r0 hr0)
  · obtain ⟨hr6, hre, _, hb2⟩ := drop_piece_some hd
    rw [hb2]
    have habove : ∀ x, x < r → getCell b x c = EMPTY :=
      fun x hx => rows_above_empty hinv hc hr6 hre x (by omega)
    have hset_r : getCell (setCell b r c p) r c = p := getCell_setCell_self hwf hr6 hc p
    have habove' : ∀ x, x < r → getCell (setCell b r c p) x c = EMPTY := by
      intro x hx
      rw [getCell_setCell_ne (Or.inl (by omega)) p]
      exact habove x hx
    rw [undo_move_eq_of hr6 (by rw [hset_r]; exact hp) habove', setCell_setCell]
    rw [← hre, setCell_getCell_self]

theorem WFBoard_drop {b : Board} (hwf : WFBoard b) (c p : Nat) :
    WFBoard (drop_piece b c p).2 := by
  rcases hd : (drop_piece b c p).1 with _ | r
  · rw [drop_piece_none_board hd]; exact hwf
  · obtain ⟨_, _, _, hb2⟩ := drop_piece_some hd
    rw [hb2]
    exact WFBoard_setCell hwf r c p

theorem WFBoard_undo {b : Board} (hwf : WFBoard b) (c : Nat) :
    WFBoard (undo_move b c) := by
  rcases undo_move_spec b c with h | ⟨q, _, _, heq, _⟩
  · rw [h]; exact hwf
  · rw [heq]; exact WFBoard_setCell hwf q c EMPTY

theorem Contig_drop {b : Board} (hwf : WFBoard b) (hinv : ContigBoard b)
    {c p : Nat} (hp : p ≠ EMPTY) :
    ContigBoard (drop_piece b c p).2 := by
  rcases hd : (drop_piece b c p).1 with _ | r
  · rw [drop_piece_none_board hd]; exact hinv
  · obtain ⟨hr6, hre, hbelow, hb2⟩ := drop_piece_some hd
    rw [hb2]
    intro c' hc' r' hr' hocc
    by_cases hcc : c' = c
    · subst hcc
      by_cases hrr : r' = r
      · subst hrr
        rw [getCell_setCell_ne (Or.inl (by omega)) p]
        exact hbelow (r' + 1) (by omega) (by omega)
      · rw [getCell_setCell_ne (Or.inl hrr) p] at hocc
        by_cases hr1 : r' + 1 = r
        · rw [hr1, getCell_setCell_self hwf hr6 hc' p]
          exact hp
        · rw [getCell_setCell_ne (Or.inl hr1) p]
          exact hinv c' hc' r' hr' hocc
    · rw [getCell_setCell_ne (Or.inr hcc) p] at hocc
      rw [getCell_setCell_ne (Or.inr hcc) p]
      exact hinv c' hc' r' hr' hocc

/-! ### Top-row preservation (no well-formedness assumptions) -/

theorem undo_topRow {b : Board} {c : Nat} (h0 : getCell b 0 c = EMPTY) :
    ∀ c', getCell (undo_move b c) 0 c' = getCell b 0 c' := by
  intro c'
  rcases undo_move_spec b c with h | ⟨q, _, hocc, heq, _⟩
  · rw [h]
  · rw [heq]
    have hq0 : q ≠ 0 := fun hq0 => hocc (hq0 ▸ h0)
    rw [getCell_setCell_ne (Or.inl fun h => hq0 h.symm) _]

theorem pair_topRow {b : Board} {c p : Nat} (hp : p ≠ EMPTY)
    (hv : is_valid_move b c = true) (bmid : Board)
    (hmid : ∀ c', getCell bmid 0 c' = getCell (drop_piece b c p).2 0 c') :
    ∀ c', getCell (undo_move bmid c) 0 c' = getCell b 0 c' := by
  have hv' : getCell b 0 c = EMPTY := by simpa [is_valid_move] using hv
  obtain ⟨r, hd⟩ := drop_piece_isSome p hv'
  obtain ⟨hr6, hre, hbelow, hb2⟩ := drop_piece_some hd
  by_cases hr0 : r = 0
  · subst hr0
    rcases setCell_self_or b 0 c p with hcase | hcase
    · have h1 : getCell bmid 0 c = p := by rw [hmid c, hb2]; exact hcase
      rw [undo_move_eq_of (show (0 : Nat) < 6 by omega) (by rw [h1]; exact hp)
        (fun x hx => absurd hx (by omega))]
      intro c'
      by_cases hcc : c' = c
      · subst hcc
        rw [getCell_setCell_empty, hv']
      · rw [getCell_setCell_ne (Or.inr hcc) _, hmid c', hb2,
          getCell_setCell_ne (Or.inr hcc) _]
    · have hmid' : ∀ c', getCell bmid 0 c' = getCell b 0 c' := by
        intro c'
        rw [hmid c', hb2, hcase]
      intro c'
      rw [undo_topRow (by rw [hmid' c]; exact hv') c', hmid' c']
  · have hmid' : ∀ c', getCell bmid 0 c' = getCell b 0 c' := by
      intro c'
      rw [hmid c', hb2, getCell_setCell_ne (Or.inl fun h => hr0 h.symm) _]
    intro c'
    rw [undo_topRow (by rw [hmid' c]; exact hv') c', hmid' c']

theorem maxLoop_topRow {child : Board → XInt → (XInt × Option Nat) × Board}
    (hchild : ∀ b' a' c', getCell (child b' a').2 0 c' = getCell b' 0 c') (beta : XInt) :
    ∀ (cols : List Nat) (b : Board) (alpha me : XInt) (bc : Option Nat) (c' : Nat),
      getCell (maxLoop child beta b cols alpha me bc).2 0 c' = getCell b 0 c' := by
  intro cols
  induction cols with
  | nil => intro b alpha me bc c'; rfl
  | cons c rest ih =>
    intro b alpha me bc c'
    simp only [maxLoop]
    by_cases hv : is_valid_move b c
    · rw [if_pos hv]
      have hpair := pair_topRow (p := PLAYER2) (by decide) hv
        (child (drop_piece b c PLAYER2).2 alpha).2
        (fun c'' => hchild (drop_piece b c PLAYER2).2 alpha c'')
      set ev := (child (drop_piece b c PLAYER2).2 alpha).1.1 with hev
      set b2 := undo_move (child (drop_piece b c PLAYER2).2 alpha).2 c with hb2
      set a2 := if alpha.blt ev = true then ev else alpha with ha2
      by_cases hb : beta.ble a2 = true
      · rw [if_pos hb]
        exact hpair c'
      · rw [if_neg hb, ih _ _ _ _ c']
        exact hpair c'
    · rw [if_neg hv]
      exact ih _ _ _ _ c'

theorem minLoop_topRow {child : Board → XInt → (XInt × Option Nat) × Board}
    (hchild : ∀ b' a' c', getCell (child b' a').2 0 c' = getCell b' 0 c') (alpha : XInt) :
    ∀ (cols : List Nat) (b : Board) (beta me : XInt) (bc : Option Nat) (c' : Nat),
      getCell (minLoop child alpha b cols beta me bc).2 0 c' = getCell b 0 c' := by
  intro cols
  induction cols with
  | nil => intro b beta me bc c'; rfl
  | cons c rest ih =>
    intro b beta me bc c'
    simp only [minLoop]
    by_cases hv : is_valid_move b c
    · rw [if_pos hv]
      have hpair := pair_topRow (p := PLAYER1) (by decide) hv
        (child (drop_piece b c PLAYER1).2 beta).2
        (fun c'' => hchild (drop_piece b c PLAYER1).2 beta c'')
      set ev := (child (drop_piece b c PLAYER1).2 beta).1.1 with hev
      set b2 := undo_move (child (drop_piece b c PLAYER1).2 beta).2 c with hb2
      set t2 := if ev.blt beta = true then ev else beta with ht2
      by_cases hb : t2.ble alpha = true
      · rw [if_pos hb]
        exact hpair c'
      · rw [if_neg hb, ih _ _ _ _ c']
        exact hpair c'
    · rw [if_neg hv]
      exact ih _ _ _ _ c'

theorem minimax_topRow :
    ∀ (d : Nat) (b : Board) (alpha beta : XInt) (m : Bool) (c' : Nat),
      getCell (minimax d b alpha beta m).2 0 c' = getCell b 0 c' := by
  intro d
  induction d with
  | zero =>
    intro b alpha beta m c'
    unfold minimax
    split
    · rfl
    split
    · rfl
    split
    · rfl
    rfl
  | succ d ih =>
    intro b alpha beta m c'
    unfold minimax
    split
    · rfl
    split
    · rfl
    split
    · rfl
    cases m
    · exact minLoop_topRow (fun b' a' c'' => ih b' alpha a' true c'') alpha _ _ _ _ _ _
    · exact maxLoop_topRow (fun b' a' c'' => ih b' a' beta false c'') beta _ _ _ _ _ _

/-! ### Restoration: minimax leaves a contiguous board unchanged -/

theorem maxLoop_restore {child : Board → XInt → (XInt × Option Nat) × Board} (beta : XInt)
    (hchild : ∀ b', WFBoard b' → ContigBoard b' → ∀ a', (child b' a').2 = b') :
    ∀ (cols : List Nat), (∀ c ∈ cols, c < 7) →
      ∀ (b : Board) (alpha me : XInt) (bc : Option Nat), WFBoard b → ContigBoard b →
        (maxLoop child beta b cols alpha me bc).2 = b := by
  intro cols
  induction cols with
  | nil => intro _ b alpha me bc _ _; rfl
  | cons c rest ih =>
    intro hlt b alpha me bc hwf hinv
    simp only [maxLoop]
    by_cases hv : is_valid_move b c
    · rw [if_pos hv]
      have hc7 : c < 7 := hlt c (List.mem_cons_self _ _)
      have hb1wf : WFBoard (drop_piece b c PLAYER2).2 := WFBoard_drop hwf c PLAYER2
      have hb1inv : ContigBoard (drop_piece b c PLAYER2).2 :=
        Contig_drop hwf hinv (by decide)
      have hundo : undo_move (child (drop_piece b c PLAYER2).2 alpha).2 c = b := by
        rw [hchild _ hb1wf hb1inv alpha]
        exact drop_undo_id hwf hinv hc7 (by decide)
          ⟨0, by omega, by simpa [is_valid_move] using hv⟩
      set ev := (child (drop_piece b c PLAYER2).2 alpha).1.1 with hev
      set b2 := undo_move (child (drop_piece b c PLAYER2).2 alpha).2 c with hb2
      set a2 := if alpha.blt ev = true then ev else alpha with ha2
      by_cases hb : beta.ble a2 = true
      · rw [if_pos hb]
        exact hundo
      · rw [if_neg hb, hundo]
        exact ih (fun c' hc' => hlt c' (List.mem_cons_of_mem _ hc')) b a2 _ _ hwf hinv
    · rw [if_neg hv]
      exact ih (fun c' hc' => hlt c' (List.mem_cons_of_mem _ hc')) b alpha me bc hwf hinv

theorem minLoop_restore {child : Board → XInt → (XInt × Option Nat) × Board} (alpha : XInt)
    (hchild : ∀ b', WFBoard b' → ContigBoard b' → ∀ a', (child b' a').2 = b') :
    ∀ (cols : List Nat), (∀ c ∈ cols, c < 7) →
      ∀ (b : Board) (beta me : XInt) (bc : Option Nat), WFBoard b → ContigBoard b →
        (minLoop child alpha b cols beta me bc).2 = b := by
  intro cols
  induction cols with
  | nil => intro _ b beta me bc _ _; rfl
  | cons c rest ih =>
    intro hlt b beta me bc hwf hinv
    simp only [minLoop]
    by_cases hv : is_valid_move b c
    · rw [if_pos hv]
      have hc7 : c < 7 := hlt c (List.mem_cons_self _ _)
      have hb1wf : WFBoard (drop_piece b c PLAYER1).2 := WFBoard_drop hwf c PLAYER1
      have hb1inv : ContigBoard (drop_piece b c PLAYER1).2 :=
        Contig_drop hwf hinv (by decide)
      have hundo : undo_move (child (drop_piece b c PLAYER1).2 beta).2 c = b := by
        rw [hchild _ hb1wf hb1inv beta]
        exact drop_undo_id hwf hinv hc7 (by decide)
          ⟨0, by omega, by simpa [is_valid_move] using hv⟩
      set ev := (child (drop_piece b c PLAYER1).2 beta).1.1 with hev
      set b2 := undo_move (child (drop_piece b c PLAYER1).2 beta).2 c with hb2
      set t2 := if ev.blt beta = true then ev else beta with ht2
      by_cases hb : t2.ble alpha = true
      · rw [if_pos hb]
        exact hundo
      · rw [if_neg hb, hundo]
        exact ih (fun c' hc' => hlt c' (List.mem_cons_of_mem _ hc')) b t2 _ _ hwf hinv
    · rw [if_neg hv]
      exact ih (fun c' hc' => hlt c' (List.mem_cons_of_mem _ hc')) b beta me bc hwf hinv

theorem cols_order_lt : ∀ c ∈ cols_order, c < 7 := by decide

theorem minimax_restore :
    ∀ (d : Nat) (b : Board) (alpha beta : XInt) (m : Bool),
      WFBoard b → ContigBoard b → (minimax d b alpha beta m).2 = b := by
  intro d
  induction d with
  | zero =>
    intro b alpha beta m hwf hinv
    unfold minimax
    split
    · rfl
    split
    · rfl
    split
    · rfl
    rfl
  | succ d ih =>
    intro b alpha beta m hwf hinv
    unfold minimax
    split
    · rfl
    split
    · rfl
    split
    · rfl
    cases m
    · exact minLoop_restore alpha (fun b' hw hi a' => ih b' alpha a' true hw hi)
        cols_order cols_order_lt b beta _ _ hwf hinv
    · exact maxLoop_restore beta (fun b' hw hi a' => ih b' a' beta false hw hi)
        cols_order cols_order_lt b alpha _ _ hwf hinv

/-! ### Score bounds -/

theorem evaluate_window_bound (w : List Nat) :
    -10000 ≤ evaluate_window w ∧ evaluate_window w ≤ 10000 := by
  unfold evaluate_window
  dsimp only
  split_ifs <;> omega

theorem list_sum_bound {α : Type} (f : α → Int) (B : Int) :
    ∀ l : List α, (∀ x ∈ l, -B ≤ f x ∧ f x ≤ B) →
      -(B * l.length) ≤ (l.map f).sum ∧ (l.map f).sum ≤ B * l.length := by
  intro l
  induction l with
  | nil => intro _; simp
  | cons a as ih =>
    intro h
    have ha := h a (List.mem_cons_self _ _)
    have has := ih fun x hx => h x (List.mem_cons_of_mem _ hx)
    simp only [List.map_cons, List.sum_cons, List.length_cons]
    push_cast
    rw [mul_add, mul_one]
    constructor
    · have := has.1
      have := ha.1
      linarith
    · have := has.2
      have := ha.2
      linarith

theorem all_windows_length : all_windows.length = 69 := by decide

theorem evaluate_board_bound (b : Board) :
    -690018 ≤ evaluate_board b ∧ evaluate_board b ≤ 690018 := by
  unfold evaluate_board
  have h1 := list_sum_bound
    (fun w => evaluate_window (w.map fun z => getCell b z.1 z.2)) 10000
    all_windows (fun x _ => evaluate_window_bound _)
  have h2 := list_sum_bound
    (fun row => if getCell b row 3 = PLAYER2 then (1 : Int)
      else if getCell b row 3 = PLAYER1 then -1 else 0) 1
    (List.range 6) (fun x _ => by dsimp only; split_ifs <;> omega)
  rw [all_windows_length] at h1
  rw [List.length_range] at h2
  norm_num at h1 h2
  constructor
  · have := h1.1
    have := h2.1
    linarith
  · have := h1.2
    have := h2.2
    linarith

theorem mem_cols_order {c : Nat} (h : c < 7) : c ∈ cols_order := by
  interval_cases c <;> decide

theorem not_full_valid {b : Board} (h : is_board_full b = false) :
    ∃ c ∈ cols_order, is_valid_move b c = true := by
  unfold is_board_full at h
  have h' : ¬ ((List.range 7).all fun col => !(getCell b 0 col == EMPTY)) = true := by
    simp [h]
  rw [List.all_eq_true] at h'
  push_neg at h'
  obtain ⟨c, hc, hpc⟩ := h'
  refine ⟨c, mem_cols_order (List.mem_range.mp hc), ?_⟩
  unfold is_valid_move
  simpa using hpc

/-! ### Finiteness and bounds of the minimax score -/

theorem maxLoop_bdd {child : Board → XInt → (XInt × Option Nat) × Board} (beta : XInt)
    {Wd : Int}
    (hchild : ∀ b', WFBoard b' → ContigBoard b' → ∀ a', BddFin Wd (child b' a').1.1)
    (hchildb : ∀ b', WFBoard b' → ContigBoard b' → ∀ a', (child b' a').2 = b') :
    ∀ (cols : List Nat), (∀ c ∈ cols, c < 7) →
      ∀ (b : Board) (alpha me : XInt) (bc : Option Nat), WFBoard b → ContigBoard b →
        (me = XInt.negInf ∨ BddFin Wd me) →
        ((∃ c ∈ cols, is_valid_move b c = true) ∨ BddFin Wd me) →
        BddFin Wd (maxLoop child beta b cols alpha me bc).1.1 := by
  intro cols
  induction cols with
  | nil =>
    intro _ b alpha me bc _ _ _ hex
    rcases hex with ⟨c, hc, _⟩ | hbdd
    · exact absurd hc (List.not_mem_nil c)
    · exact hbdd
  | cons c rest ih =>
    intro hlt b alpha me bc hwf hinv hme hex
    simp only [maxLoop]
    by_cases hv : is_valid_move b c
    · rw [if_pos hv]
      have hb1wf : WFBoard (drop_piece b c PLAYER2).2 := WFBoard_drop hwf c PLAYER2
      have hb1inv : ContigBoard (drop_piece b c PLAYER2).2 :=
        Contig_drop hwf hinv (by decide)
      obtain ⟨n, hn, hn1, hn2⟩ := hchild _ hb1wf hb1inv alpha
      have hundo : undo_move (child (drop_piece b c PLAYER2).2 alpha).2 c = b := by
        rw [hchildb _ hb1wf hb1inv alpha]
        exact drop_undo_id hwf hinv (hlt c (List.mem_cons_self _ _)) (by decide)
          ⟨0, by omega, by simpa [is_valid_move] using hv⟩
      set ev := (child (drop_piece b c PLAYER2).2 alpha).1.1 with hev
      set b2 := undo_move (child (drop_piece b c PLAYER2).2 alpha).2 c with hb2
      set a2 := if alpha.blt ev = true then ev else alpha with ha2
      have hmax2 : BddFin Wd (if me.blt ev = true then ev else me) := by
        by_cases hbe : me.blt ev = true
        · rw [if_pos hbe]
          exact ⟨n, hn, hn1, hn2⟩
        · rw [if_neg hbe]
          rcases hme with rfl | hbdd
          · exact absurd (by rw [hn]; rfl) hbe
          · exact hbdd
      by_cases hb : beta.ble a2 = true
      · rw [if_pos hb]
        exact hmax2
      · rw [if_neg hb, hundo]
        exact ih (fun c' hc' => hlt c' (List.mem_cons_of_mem _ hc')) b a2 _ _ hwf hinv
          (Or.inr hmax2) (Or.inr hmax2)
    · rw [if_neg hv]
      refine ih (fun c' hc' => hlt c' (List.mem_cons_of_mem _ hc')) b alpha me bc hwf hinv
        hme ?_
      rcases hex with ⟨c', hc', hv'⟩ | hbdd
      · rcases List.mem_cons.mp hc' with rfl | hc''
        · exact absurd hv' hv
        · exact Or.inl ⟨c', hc'', hv'⟩
      · exact Or.inr hbdd

theorem minLoop_bdd {child : Board → XInt → (XInt × Option Nat) × Board} (alpha : XInt)
    {Wd : Int}
    (hchild : ∀ b', WFBoard b' → ContigBoard b' → ∀ a', BddFin Wd (child b' a').1.1)
    (hchildb : ∀ b', WFBoard b' → ContigBoard b' → ∀ a', (child b' a').2 = b') :
    ∀ (cols : List Nat), (∀ c ∈ cols, c < 7) →
      ∀ (b : Board) (beta me : XInt) (bc : Option Nat), WFBoard b → ContigBoard b →
        (me = XInt.posInf ∨ BddFin Wd me) →
        ((∃ c ∈ cols, is_valid_move b c = true) ∨ BddFin Wd me) →
        BddFin Wd (minLoop child alpha b cols beta me bc).1.1 := by
  intro cols
  induction cols with
  | nil =>
    intro _ b beta me bc _ _ _ hex
    rcases hex with ⟨c, hc, _⟩ | hbdd
    · exact absurd hc (List.not_mem_nil c)
    · exact hbdd
  | cons c rest ih =>
    intro hlt b beta me bc hwf hinv hme hex
    simp only [minLoop]
    by_cases hv : is_valid_move b c
    · rw [if_pos hv]
      have hb1wf : WFBoard (drop_piece b c PLAYER1).2 := WFBoard_drop hwf c PLAYER1
      have hb1inv : ContigBoard (drop_piece b c PLAYER1).2 :=
        Contig_drop hwf hinv (by decide)
      obtain ⟨n, hn, hn1, hn2⟩ := hchild _ hb1wf hb1inv beta
      have hundo : undo_move (child (drop_piece b c PLAYER1).2 beta).2 c = b := by
        rw [hchildb _ hb1wf hb1inv beta]
        exact drop_undo_id hwf hinv (hlt c (List.mem_cons_self _ _)) (by decide)
          ⟨0, by omega, by simpa [is_valid_move] using hv⟩
      set ev := (child (drop_piece b c PLAYER1).2 beta).1.1 with hev
      set b2 := undo_move (child (drop_piece b c PLAYER1).2 beta).2 c with hb2
      set t2 := if ev.blt beta = true then ev else beta with ht2
      have hmin2 : BddFin Wd (if ev.blt me = true then ev else me) := by
        by_cases hbe : ev.blt me = true
        · rw [if_pos hbe]
          exact ⟨n, hn, hn1, hn2⟩
        · rw [if_neg hbe]
          rcases hme with rfl | hbdd
          · exact absurd (by rw [hn]; rfl) hbe
          · exact hbdd
      by_cases hb : t2.ble alpha = true
      · rw [if_pos hb]
        exact hmin2
      · rw [if_neg hb, hundo]
        exact ih (fun c' hc' => hlt c' (List.mem_cons_of_mem _ hc')) b t2 _ _ hwf hinv
          (Or.inr hmin2) (Or.inr hmin2)
    · rw [if_neg hv]
      refine ih (fun c' hc' => hlt c' (List.mem_cons_of_mem _ hc')) b beta me bc hwf hinv
        hme ?_
      rcases hex with ⟨c', hc', hv'⟩ | hbdd
      · rcases List.mem_cons.mp hc' with rfl | hc''
        · exact absurd hv' hv
        · exact Or.inl ⟨c', hc'', hv'⟩
      · exact Or.inr hbdd

theorem minimax_bound :
    ∀ (d : Nat) (b : Board) (alpha beta : XInt) (m : Bool), WFBoard b → ContigBoard b →
      ∃ n : Int, (minimax d b alpha beta m).1.1 = .fin n ∧
        -(999999999 + d) ≤ n ∧ n ≤ 999999999 + d ∧
        (check_win b PLAYER2 = false → n ≤ 999999999 + d - 1) := by
  intro d
  induction d with
  | zero =>
    intro b alpha beta m hwf hinv
    unfold minimax
    split
    · next hw2 =>
      exact ⟨999999999 + 0, by norm_num, by norm_num, by norm_num,
        fun hc => absurd hw2 (by simp [hc])⟩
    split
    · exact ⟨-999999999 - 0, by norm_num, by norm_num, by norm_num, fun _ => by norm_num⟩
    split
    · exact ⟨0, rfl, by norm_num, by norm_num, fun _ => by norm_num⟩
    have hb := evaluate_board_bound b
    exact ⟨evaluate_board b, rfl, by push_cast; linarith [hb.1], by push_cast; linarith [hb.2],
      fun _ => by push_cast; linarith [hb.2]⟩
  | succ d ih =>
    intro b alpha beta m hwf hinv
    unfold minimax
    split
    · next hw2 =>
      exact ⟨999999999 + (d + 1 : Nat), by push_cast; ring_nf, by push_cast; omega,
        by push_cast; omega, fun hc => absurd hw2 (by simp [hc])⟩
    split
    · exact ⟨-999999999 - (d + 1 : Nat), by push_cast; ring_nf, by push_cast; omega,
        by push_cast; omega, fun _ => by push_cast; omega⟩
    split
    · exact ⟨0, rfl, by push_cast; omega, by push_cast; omega, fun _ => by push_cast; omega⟩
    next hnf =>
    have hex : ∃ c ∈ cols_order, is_valid_move b c = true :=
      not_full_valid (by simpa using hnf)
    have hchild1 : ∀ b', WFBoard b' → ContigBoard b' → ∀ a',
        BddFin (999999999 + d) (minimax d b' a' beta false).1.1 := by
      intro b' hw hi a'
      obtain ⟨n, hn, h1, h2, _⟩ := ih b' a' beta false hw hi
      exact ⟨n, hn, h1, h2⟩
    have hchild2 : ∀ b', WFBoard b' → ContigBoard b' → ∀ a',
        BddFin (999999999 + d) (minimax d b' alpha a' true).1.1 := by
      intro b' hw hi a'
      obtain ⟨n, hn, h1, h2, _⟩ := ih b' alpha a' true hw hi
      exact ⟨n, hn, h1, h2⟩
    cases m
    · obtain ⟨n, hn, h1, h2⟩ := minLoop_bdd alpha hchild2
        (fun b' hw hi a' => minimax_restore d b' alpha a' true hw hi)
        cols_order cols_order_lt b beta _ none hwf hinv (Or.inl rfl) (Or.inl hex)
      exact ⟨n, hn, by push_cast; omega, by push_cast; omega, fun _ => by push_cast; omega⟩
    · obtain ⟨n, hn, h1, h2⟩ := maxLoop_bdd beta hchild1
        (fun b' hw hi a' => minimax_restore d b' a' beta false hw hi)
        cols_order cols_order_lt b alpha _ none hwf hinv (Or.inl rfl) (Or.inl hex)
      exact ⟨n, hn, by push_cast; omega, by push_cast; omega, fun _ => by push_cast; omega⟩

/-! ### Small facts about XInt and terminal minimax states -/

theorem XInt.blt_fin_fin {m n : Int} : XInt.blt (.fin m) (.fin n) = true ↔ m < n := by
  simp [XInt.blt]

theorem XInt.blt_negInf_fin (n : Int) : XInt.blt .negInf (.fin n) = true := rfl

theorem XInt.ble_posInf_iff {x : XInt} : XInt.ble .posInf x = true ↔ x = .posInf := by
  cases x <;> simp [XInt.ble]

theorem minimax_win2 {b : Board} (h : check_win b PLAYER2 = true)
    (d : Nat) (alpha beta : XInt) (m : Bool) :
    minimax d b alpha beta m = ((.fin (999999999 + d), none), b) := by
  unfold minimax
  rw [if_pos h]

theorem minimax_win1 {b : Board} (h2 : check_win b PLAYER2 = false)
    (h1 : check_win b PLAYER1 = true) (d : Nat) (alpha beta : XInt) (m : Bool) :
    minimax d b alpha beta m = ((.fin (-999999999 - d), none), b) := by
  unfold minimax
  rw [if_neg (by simp [h2]), if_pos h1]

theorem minimax_draw {b : Board} (h2 : check_win b PLAYER2 = false)
    (h1 : check_win b PLAYER1 = false) (hf : is_board_full b = true)
    (d : Nat) (alpha beta : XInt) (m : Bool) :
    minimax d b alpha beta m = ((.fin 0, none), b) := by
  unfold minimax
  rw [if_neg (by simp [h2]), if_neg (by simp [h1]), if_pos hf]

theorem minimax_leaf {b : Board} (h2 : check_win b PLAYER2 = false)
    (h1 : check_win b PLAYER1 = false) (hf : is_board_full b = false)
    (alpha beta : XInt) (m : Bool) :
    minimax 0 b alpha beta m = ((.fin (evaluate_board b), none), b) := by
  unfold minimax
  rw [if_neg (by simp [h2]), if_neg (by simp [h1]), if_neg (by simp [hf])]

/-! ### Out-of-range columns are no-ops on well-formed boards -/

theorem getCell_oob_col {b : Board} (hwf : WFBoard b) {c : Nat} (hc : 7 ≤ c) (r : Nat) :
    getCell b r c = EMPTY := by
  obtain ⟨hlen, hrows⟩ := hwf
  unfold getCell
  simp only [List.getD_eq_getElem?_getD]
  by_cases hrb : r < b.length
  · rw [List.getElem?_eq_getElem hrb, Option.getD_some,
      List.getElem?_eq_none (by rw [hrows _ (List.getElem_mem hrb)]; omega)]
    rfl
  · rw [List.getElem?_eq_none (l := b) (by omega)]
    rfl

theorem setCell_oob {b : Board} (hwf : WFBoard b) {c : Nat} (hc : 7 ≤ c) (r v : Nat) :
    setCell b r c v = b := by
  obtain ⟨hlen, hrows⟩ := hwf
  unfold setCell
  by_cases hrb : r < b.length
  · have hrowlen : (b.getD r []).length = 7 := by
      rw [List.getD_eq_getElem?_getD, List.getElem?_eq_getElem hrb, Option.getD_some]
      exact hrows _ (List.getElem_mem hrb)
    rw [List.set_eq_of_length_le (l := b.getD r []) (by omega)]
    rw [List.getD_eq_getElem?_getD, List.getElem?_eq_getElem hrb, Option.getD_some]
    exact list_set_getElem_self b r hrb
  · exact List.set_eq_of_length_le (by omega)

theorem drop_oob {b : Board} (hwf : WFBoard b) {c : Nat} (hc : 7 ≤ c) (p : Nat) :
    (drop_piece b c p).2 = b := by
  unfold drop_piece
  rw [range6_reverse, List.find?_cons_of_pos _ (by simp [getCell_oob_col hwf hc 5])]
  exact setCell_oob hwf hc 5 p

/-! ### The maximizing root loop finds an immediate winning column -/

theorem maxLoop_won {b : Board} {d : Nat} (hwf : WFBoard b) (hinv : ContigBoard b) :
    ∀ (cols : List Nat), (∀ c ∈ cols, c < 7) →
      ∀ (alpha : XInt) (cw : Nat), alpha ≠ XInt.posInf → winning_col b cw →
        ∃ cw', (maxLoop (fun b1 a1 => minimax d b1 a1 .posInf false) .posInf b cols alpha
            (.fin (999999999 + (d : Int))) (some cw)).1 =
            (.fin (999999999 + (d : Int)), some cw') ∧ winning_col b cw' := by
  intro cols
  induction cols with
  | nil =>
    intro _ alpha cw _ hcw
    exact ⟨cw, rfl, hcw⟩
  | cons c rest ih =>
    intro hlt alpha cw halpha hcw
    simp only [maxLoop]
    by_cases hv : is_valid_move b c
    · rw [if_pos hv]
      have hb1wf : WFBoard (drop_piece b c PLAYER2).2 := WFBoard_drop hwf c PLAYER2
      have hb1inv : ContigBoard (drop_piece b c PLAYER2).2 :=
        Contig_drop hwf hinv (by decide)
      have hundo : undo_move
          ((fun b1 a1 => minimax d b1 a1 .posInf false) (drop_piece b c PLAYER2).2 alpha).2 c
          = b := by
        rw [minimax_restore d _ alpha .posInf false hb1wf hb1inv]
        exact drop_undo_id hwf hinv (hlt c (List.mem_cons_self _ _)) (by decide)
          ⟨0, by omega, by simpa [is_valid_move] using hv⟩
      obtain ⟨n, hn, _, hn2, _⟩ := minimax_bound d (drop_piece b c PLAYER2).2 alpha
        .posInf false hb1wf hb1inv
      set ev := (minimax d (drop_piece b c PLAYER2).2 alpha .posInf false).1.1 with hev
      have hblt : XInt.blt (.fin (999999999 + (d : Int))) ev = false := by
        rw [hn]
        simp only [XInt.blt, decide_eq_false_iff_not]
        omega
      simp only [hblt, Bool.false_eq_true, if_false]
      set a2 := if alpha.blt ev = true then ev else alpha with ha2
      have ha2ne : a2 ≠ XInt.posInf := by
        rw [ha2]
        split
        · rw [hn]
          exact fun h => XInt.noConfusion h
        · exact halpha
      have hble : XInt.ble .posInf a2 = false := by
        rcases hb : XInt.ble XInt.posInf a2 with _ | _
        · rfl
        · exact absurd (XInt.ble_posInf_iff.mp hb) ha2ne
      simp only [hble, Bool.false_eq_true, if_false]
      rw [hundo]
      exact ih (fun c' hc' => hlt c' (List.mem_cons_of_mem _ hc')) a2 cw ha2ne hcw
    · rw [if_neg hv]
      exact ih (fun c' hc' => hlt c' (List.mem_cons_of_mem _ hc')) alpha cw halpha hcw

theorem maxLoop_pre {b : Board} {d : Nat} (hwf : WFBoard b) (hinv : ContigBoard b) :
    ∀ (cols : List Nat), (∀ c ∈ cols, c < 7) →
      ∀ (alpha me : XInt) (bc : Option Nat), alpha ≠ XInt.posInf →
        (me = XInt.negInf ∨ ∃ n : Int, me = .fin n ∧ n ≤ 999999999 + (d : Int) - 1) →
        (∃ c ∈ cols, winning_col b c) →
        ∃ cw', (maxLoop (fun b1 a1 => minimax d b1 a1 .posInf false) .posInf b cols alpha
            me bc).1 = (.fin (999999999 + (d : Int)), some cw') ∧ winning_col b cw' := by
  intro cols
  induction cols with
  | nil =>
    intro _ alpha me bc _ _ hex
    obtain ⟨c, hc, _⟩ := hex
    exact absurd hc (List.not_mem_nil c)
  | cons c rest ih =>
    intro hlt alpha me bc halpha hme hex
    simp only [maxLoop]
    by_cases hv : is_valid_move b c
    · rw [if_pos hv]
      have hb1wf : WFBoard (drop_piece b c PLAYER2).2 := WFBoard_drop hwf c PLAYER2
      have hb1inv : ContigBoard (drop_piece b c PLAYER2).2 :=
        Contig_drop hwf hinv (by decide)
      have hundo : undo_move
          ((fun b1 a1 => minimax d b1 a1 .posInf false) (drop_piece b c PLAYER2).2 alpha).2 c
          = b := by
        rw [minimax_restore d _ alpha .posInf false hb1wf hb1inv]
        exact drop_undo_id hwf hinv (hlt c (List.mem_cons_self _ _)) (by decide)
          ⟨0, by omega, by simpa [is_valid_move] using hv⟩
      by_cases hwin : check_win (drop_piece b c PLAYER2).2 PLAYER2 = true
      · have hev : (minimax d (drop_piece b c PLAYER2).2 alpha .posInf false).1.1 =
            .fin (999999999 + (d : Int)) := by
          rw [minimax_win2 hwin d alpha .posInf false]
        set ev := (minimax d (drop_piece b c PLAYER2).2 alpha .posInf false).1.1 with hevd
        have hblt : XInt.blt me ev = true := by
          rw [hev]
          rcases hme with rfl | ⟨n, rfl, hn⟩
          · rfl
          · rw [XInt.blt_fin_fin]
            omega
        simp only [hblt, if_true]
        set a2 := if alpha.blt ev = true then ev else alpha with ha2
        have ha2ne : a2 ≠ XInt.posInf := by
          rw [ha2]
          split
          · rw [hev]
            exact fun h => XInt.noConfusion h
          · exact halpha
        have hble : XInt.ble .posInf a2 = false := by
          rcases hb : XInt.ble XInt.posInf a2 with _ | _
          · rfl
          · exact absurd (XInt.ble_posInf_iff.mp hb) ha2ne
        simp only [hble, Bool.false_eq_true, if_false]
        rw [hundo, hev]
        exact maxLoop_won hwf hinv rest (fun c' hc' => hlt c' (List.mem_cons_of_mem _ hc'))
          a2 c ha2ne ⟨hv, hwin⟩
      · obtain ⟨n, hn, _, _, hn3⟩ := minimax_bound d (drop_piece b c PLAYER2).2 alpha
          .posInf false hb1wf hb1inv
        have hn3' := hn3 (by simpa using hwin)
        set ev := (minimax d (drop_piece b c PLAYER2).2 alpha .posInf false).1.1 with hevd
        set a2 := if alpha.blt ev = true then ev else alpha with ha2
        have ha2ne : a2 ≠ XInt.posInf := by
          rw [ha2]
          split
          · rw [hn]
            exact fun h => XInt.noConfusion h
          · exact halpha
        have hble : XInt.ble .posInf a2 = false := by
          rcases hb : XInt.ble XInt.posInf a2 with _ | _
          · rfl
          · exact absurd (XInt.ble_posInf_iff.mp hb) ha2ne
        simp only [hble, Bool.false_eq_true, if_false]
        rw [hundo]
        have hme2 : (if me.blt ev = true then ev else me) = XInt.negInf ∨
            ∃ n' : Int, (if me.blt ev = true then ev else me) = .fin n' ∧
              n' ≤ 999999999 + (d : Int) - 1 := by
          split
          · exact Or.inr ⟨n, hn, by push_cast at hn3' ⊢; omega⟩
          · exact hme
        have hex2 : ∃ c' ∈ rest, winning_col b c' := by
          obtain ⟨c', hc', hw'⟩ := hex
          rcases List.mem_cons.mp hc' with rfl | hc'' 
          · exact absurd hw'.2 hwin
          · exact ⟨c', hc'', hw'⟩
        exact ih (fun c' hc' => hlt c' (List.mem_cons_of_mem _ hc')) a2 _ _ ha2ne hme2 hex2
    · rw [if_neg hv]
      have hex2 : ∃ c' ∈ rest, winning_col b c' := by
        obtain ⟨c', hc', hw'⟩ := hex
        rcases List.mem_cons.mp hc' with rfl | hc'' 
        · exact absurd hw'.1 hv
        · exact ⟨c', hc'', hw'⟩
      exact ih (fun c' hc' => hlt c' (List.mem_cons_of_mem _ hc')) alpha me bc halpha hme hex2

/-! ### The search returns an immediately winning column (amended C1 core) -/

theorem minimax_finds_win {b : Board} (hwf : WFBoard b) (hinv : ContigBoard b)
    (h2 : check_win b PLAYER2 = false) (h1 : check_win b PLAYER1 = false)
    (hnf : is_board_full b = false) {c₀ : Nat} (hc₀ : winning_col b c₀)
    {d : Nat} (hd : 1 ≤ d) :
    ∃ cw, (minimax d b .negInf .posInf true).1 =
        (.fin (999999999 + ((d : Int) - 1)), some cw) ∧ winning_col b cw := by
  obtain ⟨d', rfl⟩ : ∃ d', d = d' + 1 := ⟨d - 1, by omega⟩
  have hc7 : c₀ < 7 := by
    by_contra h
    have hob := drop_oob hwf (c := c₀) (by omega) PLAYER2
    have hcw := hc₀.2
    rw [hob] at hcw
    exact absurd hcw (by simp [h2])
  have hroot : minimax (d' + 1) b .negInf .posInf true =
      maxLoop (fun b1 a1 => minimax d' b1 a1 .posInf false) .posInf b cols_order
        .negInf .negInf none := by
    conv_lhs => unfold minimax
    rw [if_neg (by simp [h2]), if_neg (by simp [h1]), if_neg (by simp [hnf])]
    rfl
  rw [hroot]
  obtain ⟨cw, hres, hw⟩ := maxLoop_pre hwf hinv cols_order cols_order_lt
    .negInf .negInf none (fun h => XInt.noConfusion h) (Or.inl rfl)
    ⟨c₀, mem_cols_order hc7, hc₀⟩
  refine ⟨cw, ?_, hw⟩
  rw [hres]
  norm_num

/-! ### Returned columns are legal (C4 core) -/

theorem maxLoop_legal {child : Board → XInt → (XInt × Option Nat) × Board} (beta : XInt)
    (hchildTop : ∀ b' a' c', getCell (child b' a').2 0 c' = getCell b' 0 c') :
    ∀ (cols : List Nat) (b0 b : Board) (alpha me : XInt) (bc : Option Nat),
      (∀ c', getCell b 0 c' = getCell b0 0 c') →
      (bc = none ∨ ∃ cb, bc = some cb ∧ is_valid_move b0 cb = true) →
      ((maxLoop child beta b cols alpha me bc).1.2 = none ∨
        ∃ cb, (maxLoop child beta b cols alpha me bc).1.2 = some cb ∧
          is_valid_move b0 cb = true) := by
  intro cols
  induction cols with
  | nil => intro b0 b alpha me bc _ hbc; exact hbc
  | cons c rest ih =>
    intro b0 b alpha me bc htop hbc
    simp only [maxLoop]
    by_cases hv : is_valid_move b c
    · rw [if_pos hv]
      have hv0 : is_valid_move b0 c = true := by
        unfold is_valid_move at hv ⊢
        rw [← htop c]
        exact hv
      have hpair := pair_topRow (p := PLAYER2) (by decide) hv
        (child (drop_piece b c PLAYER2).2 alpha).2
        (fun c'' => hchildTop (drop_piece b c PLAYER2).2 alpha c'')
      set ev := (child (drop_piece b c PLAYER2).2 alpha).1.1 with hev
      set b2 := undo_move (child (drop_piece b c PLAYER2).2 alpha).2 c with hb2
      set a2 := if alpha.blt ev = true then ev else alpha with ha2
      have hbc2 : (if me.blt ev = true then some c else bc) = none ∨
          ∃ cb, (if me.blt ev = true then some c else bc) = some cb ∧
            is_valid_move b0 cb = true := by
        split
        · exact Or.inr ⟨c, rfl, hv0⟩
        · exact hbc
      by_cases hb : beta.ble a2 = true
      · rw [if_pos hb]
        exact hbc2
      · rw [if_neg hb]
        exact ih b0 b2 a2 _ _ (fun c'' => by rw [hpair c'', htop c'']) hbc2
    · rw [if_neg hv]
      exact ih b0 b alpha me bc htop hbc

theorem minLoop_legal {child : Board → XInt → (XInt × Option Nat) × Board} (alpha : XInt)
    (hchildTop : ∀ b' a' c', getCell (child b' a').2 0 c' = getCell b' 0 c') :
    ∀ (cols : List Nat) (b0 b : Board) (beta me : XInt) (bc : Option Nat),
      (∀ c', getCell b 0 c' = getCell b0 0 c') →
      (bc = none ∨ ∃ cb, bc = some cb ∧ is_valid_move b0 cb = true) →
      ((minLoop child alpha b cols beta me bc).1.2 = none ∨
        ∃ cb, (minLoop child alpha b cols beta me bc).1.2 = some cb ∧
          is_valid_move b0 cb = true) := by
  intro cols
  induction cols with
  | nil => intro b0 b beta me bc _ hbc; exact hbc
  | cons c rest ih =>
    intro b0 b beta me bc htop hbc
    simp only [minLoop]
    by_cases hv : is_valid_move b c
    · rw [if_pos hv]
      have hv0 : is_valid_move b0 c = true := by
        unfold is_valid_move at hv ⊢
        rw [← htop c]
        exact hv
      have hpair := pair_topRow (p := PLAYER1) (by decide) hv
        (child (drop_piece b c PLAYER1).2 beta).2
        (fun c'' => hchildTop (drop_piece b c PLAYER1).2 beta c'')
      set ev := (child (drop_piece b c PLAYER1).2 beta).1.1 with hev
      set b2 := undo_move (child (drop_piece b c PLAYER1).2 beta).2 c with hb2
      set t2 := if ev.blt beta = true then ev else beta with ht2
      have hbc2 : (if ev.blt me = true then some c else bc) = none ∨
          ∃ cb, (if ev.blt me = true then some c else bc) = some cb ∧
            is_valid_move b0 cb = true := by
        split
        · exact Or.inr ⟨c, rfl, hv0⟩
        · exact hbc
      by_cases hb : t2.ble alpha = true
      · rw [if_pos hb]
        exact hbc2
      · rw [if_neg hb]
        exact ih b0 b2 t2 _ _ (fun c'' => by rw [hpair c'', htop c'']) hbc2
    · rw [if_neg hv]
      exact ih b0 b beta me bc htop hbc

theorem minimax_col_legal (d : Nat) (b : Board) (alpha beta : XInt) (m : Bool) :
    (minimax d b alpha beta m).1.2 = none ∨
      ∃ cb, (minimax d b alpha beta m).1.2 = some cb ∧ is_valid_move b cb = true := by
  cases d with
  | zero =>
    unfold minimax
    split
    · exact Or.inl rfl
    split
    · exact Or.inl rfl
    split
    · exact Or.inl rfl
    exact Or.inl rfl
  | succ d =>
    unfold minimax
    split
    · exact Or.inl rfl
    split
    · exact Or.inl rfl
    split
    · exact Or.inl rfl
    cases m
    · exact minLoop_legal alpha
        (fun b' a' c'' => minimax_topRow d b' alpha a' true c'')
        cols_order b b beta _ none (fun _ => rfl) (Or.inl rfl)
    · exact maxLoop_legal beta
        (fun b' a' c'' => minimax_topRow d b' a' beta false c'')
        cols_order b b alpha _ none (fun _ => rfl) (Or.inl rfl)

theorem minimax_no_valid {b : Board} (h : ∀ c, c < 7 → is_valid_move b c = false)
    (d : Nat) (alpha beta : XInt) (m : Bool) : (minimax d b alpha beta m).1.2 = none := by
  have hfull : is_board_full b = true := by
    unfold is_board_full
    rw [List.all_eq_true]
    intro c hc
    have := h c (List.mem_range.mp hc)
    unfold is_valid_move at this
    simpa using this
  by_cases h2 : check_win b PLAYER2 = true
  · rw [minimax_win2 h2]
  · by_cases h1 : check_win b PLAYER1 = true
    · rw [minimax_win1 (by simpa using h2) h1]
    · rw [minimax_draw (by simpa using h2) (by simpa using h1) hfull]

/-! ### check_win agrees with the declarative win specification (C7 core) -/

theorem check_win_iff (b : Board) (p : Nat) : check_win b p = true ↔ winSpec b p := by
  unfold check_win winSpec
  simp only [Bool.or_eq_true, List.any_eq_true, List.all_eq_true, List.mem_range,
    beq_iff_eq, List.mem_range'_1]
  norm_num
  constructor
  · rintro (((h | h) | h) | ⟨x, ⟨hx3, hx6⟩, h⟩)
    · exact Or.inl h
    · exact Or.inr (Or.inl h)
    · exact Or.inr (Or.inr (Or.inl h))
    · exact Or.inr (Or.inr (Or.inr ⟨x, hx3, hx6, h⟩))
  · rintro (h | h | h | ⟨r, h3, h6, h⟩)
    · exact Or.inl (Or.inl (Or.inl h))
    · exact Or.inl (Or.inl (Or.inr h))
    · exact Or.inl (Or.inr h)
    · exact Or.inr ⟨r, ⟨h3, h6⟩, h⟩

/-! ### Raw Python indexing semantics (C8 and C9 cores) -/

theorem pyResolve7_pos {col : Int} (h0 : 0 ≤ col) (h7 : col < 7) :
    pyResolve 7 col = some col.toNat := by
  unfold pyResolve
  dsimp only
  rw [if_neg (show ¬ col < 0 by omega)]
  split
  · rfl
  · next h =>
    exfalso
    push_cast at h
    omega

theorem pyResolve7_neg {col : Int} (h0 : -7 ≤ col) (h7 : col < 0) :
    pyResolve 7 col = some (col + 7).toNat := by
  unfold pyResolve
  dsimp only
  rw [if_pos (show col < 0 by omega)]
  split
  · norm_num
  · next h =>
    exfalso
    push_cast at h
    omega

theorem pyResolve7_none {col : Int} (h : col < -7 ∨ 7 ≤ col) :
    pyResolve 7 col = none := by
  unfold pyResolve
  dsimp only
  by_cases hc : col < 0
  · rw [if_pos hc]
    split
    · next hj =>
      exfalso
      push_cast at hj
      omega
    · rfl
  · rw [if_neg hc]
    split
    · next hj =>
      exfalso
      push_cast at hj
      omega
    · rfl

theorem getD_row_len {b : Board} (hwf : WFBoard b) {r : Nat} (hr : r < 6) :
    (b.getD r []).length = 7 := by
  obtain ⟨hlen, hrows⟩ := hwf
  rw [List.getD_eq_getElem?_getD, List.getElem?_eq_getElem (by omega), Option.getD_some]
  exact hrows _ (List.getElem_mem (by omega))

theorem pyGet_row0 {b : Board} (hwf : WFBoard b) : pyGet b 0 = some (b.getD 0 []) := by
  have hlen := hwf.1
  unfold pyGet
  rw [hlen]
  show b[0]? = some (b.getD 0 [])
  rw [List.getElem?_eq_getElem (by omega), List.getD_eq_getElem?_getD,
    List.getElem?_eq_getElem (by omega), Option.getD_some]

theorem pyGet_len7_pos {row : List Nat} (h : row.length = 7) {col : Int}
    (h0 : 0 ≤ col) (h7 : col < 7) :
    pyGet row col = some (row.getD col.toNat EMPTY) := by
  unfold pyGet
  rw [h, pyResolve7_pos h0 h7]
  show row[col.toNat]? = _
  rw [List.getElem?_eq_getElem (by omega), List.getD_eq_getElem?_getD,
    List.getElem?_eq_getElem (by omega), Option.getD_some]

theorem pyGet_len7_neg {row : List Nat} (h : row.length = 7) {col : Int}
    (h0 : -7 ≤ col) (h7 : col < 0) :
    pyGet row col = some (row.getD (col + 7).toNat EMPTY) := by
  unfold pyGet
  rw [h, pyResolve7_neg h0 h7]
  show row[(col + 7).toNat]? = _
  rw [List.getElem?_eq_getElem (by omega), List.getD_eq_getElem?_getD,
    List.getElem?_eq_getElem (by omega), Option.getD_some]

theorem pyGet_len7_none {row : List Nat} (h : row.length = 7) {col : Int}
    (hc : col < -7 ∨ 7 ≤ col) : pyGet row col = none := by
  unfold pyGet
  rw [h, pyResolve7_none hc]

theorem is_valid_move_py_spec {b : Board} (hwf : WFBoard b) (col : Int) :
    (0 ≤ col → col < 7 →
      is_valid_move_py b col = some (is_valid_move b col.toNat)) ∧
    (-7 ≤ col → col < 0 →
      is_valid_move_py b col = some (is_valid_move b (col + 7).toNat)) ∧
    ((col < -7 ∨ 7 ≤ col) → is_valid_move_py b col = none) := by
  have hrow := getD_row_len hwf (r := 0) (by omega)
  have hred : is_valid_move_py b col =
      Option.map (fun v => v == EMPTY) (pyGet (b.getD 0 []) col) := by
    unfold is_valid_move_py
    rw [pyGet_row0 hwf]
  refine ⟨fun h0 h7 => ?_, fun h0 h7 => ?_, fun hc => ?_⟩
  · rw [hred, pyGet_len7_pos hrow h0 h7]
    rfl
  · rw [hred, pyGet_len7_neg hrow h0 h7]
    rfl
  · rw [hred, pyGet_len7_none hrow hc]
    rfl

theorem drop_piece_py_oob {b : Board} (hwf : WFBoard b) {col : Int}
    (h : col < -7 ∨ 7 ≤ col) (p : Nat) : drop_piece_py b col p = none := by
  unfold drop_piece_py
  rw [range6_reverse]
  unfold drop_piece_py_go
  dsimp only
  rw [getD_row_len hwf (by omega), pyResolve7_none h]

theorem drop_piece_py_go_full {b : Board} (hwf : WFBoard b) {col : Int} (p : Nat)
    (h0 : 0 ≤ col) (h7 : col < 7)
    (hfull : ∀ r, r < 6 → getCell b r col.toNat ≠ EMPTY) :
    ∀ l : List Nat, (∀ r ∈ l, r < 6) →
      drop_piece_py_go b col p l = some (none, b) := by
  intro l
  induction l with
  | nil => intro _; rfl
  | cons r rest ih =>
    intro hmem
    have hr6 : r < 6 := hmem r (List.mem_cons_self _ _)
    unfold drop_piece_py_go
    dsimp only
    rw [getD_row_len hwf hr6, pyResolve7_pos h0 h7]
    show (if ((List.getD b r []).getD col.toNat EMPTY == EMPTY) = true
        then some (some r, List.set b r ((List.getD b r []).set col.toNat p))
        else drop_piece_py_go b col p rest) = some (none, b)
    rw [if_neg (by simpa [getCell] using hfull r hr6)]
    exact ih fun r' hr' => hmem r' (List.mem_cons_of_mem _ hr')

theorem drop_piece_py_full {b : Board} (hwf : WFBoard b) {col : Int} (p : Nat)
    (h0 : 0 ≤ col) (h7 : col < 7)
    (hfull : ∀ r, r < 6 → getCell b r col.toNat ≠ EMPTY) :
    drop_piece_py b col p = some (none, b) := by
  unfold drop_piece_py
  rw [range6_reverse]
  exact drop_piece_py_go_full hwf p h0 h7 hfull _ (fun r hr => mem_range6_rev_iff.mp hr)

/-! ### The claims -/

set_option maxRecDepth 100000

/-- C1 (amended): on every well-formed board satisfying the
column-contiguity invariant, in which neither player has yet won, that is
not full, and that has a column whose application by Player Two completes
four-in-a-row for Player Two, `minimax` at every depth ≥ 1 with the full
window (−∞, +∞) and `maximizing = true` returns a column that completes
four-in-a-row for Player Two, with a score ≥ 999999999.  (The original
claim, without the contiguity invariant, is refuted by
`claim1_counterexample`.) -/
theorem claim1_theorem (b : Board) (hwf : WFBoard b) (hinv : ContigBoard b)
    (h2 : check_win b PLAYER2 = false) (h1 : check_win b PLAYER1 = false)
    (hnf : is_board_full b = false) (c₀ : Nat) (hc₀ : winning_col b c₀)
    (d : Nat) (hd : 1 ≤ d) :
    ∃ cw, (minimax d b .negInf .posInf true).1.2 = some cw ∧ winning_col b cw ∧
      XInt.ble (.fin 999999999) (minimax d b .negInf .posInf true).1.1 = true := by
  obtain ⟨cw, hres, hw⟩ := minimax_finds_win hwf hinv h2 h1 hnf hc₀ hd
  refine ⟨cw, ?_, hw, ?_⟩
  · rw [show (minimax d b .negInf .posInf true).1.2 = ((minimax d b .negInf .posInf true).1).2
      from rfl, hres]
  · rw [show (minimax d b .negInf .posInf true).1.1 = ((minimax d b .negInf .posInf true).1).1
      from rfl, hres]
    show XInt.ble (.fin 999999999) (.fin (999999999 + ((d : Int) - 1))) = true
    simp only [XInt.ble, decide_eq_true_eq]
    omega

/-- C1 witness: a concrete contiguous board one move from a Player-Two
win, at depth 1. -/
theorem claim1_witness :
    WFBoard bC1w ∧ ContigBoard bC1w ∧ check_win bC1w PLAYER2 = false ∧
      check_win bC1w PLAYER1 = false ∧ is_board_full bC1w = false ∧ winning_col bC1w 1 ∧
      ∃ cw, (minimax 1 bC1w .negInf .posInf true).1.2 = some cw ∧ winning_col bC1w cw ∧
        XInt.ble (.fin 999999999) (minimax 1 bC1w .negInf .posInf true).1.1 = true :=
  ⟨by decide, by decide, by decide, by decide, by decide, by decide,
    claim1_theorem bC1w (by decide) (by decide) (by decide) (by decide) (by decide)
      1 (by decide) 1 (by decide)⟩

/-- C1 counterexample: the board `bC1x` satisfies every hypothesis of the
original claim (neither player has won, it is not full, and column 1 is a
winning column for Player Two), yet `minimax` at depth 1 returns column 2,
which does not complete four-in-a-row for Player Two on the input board:
column 3 violates the contiguity invariant, so the first drop/undo pair
corrupts the board mid-search. -/
theorem claim1_counterexample :
    check_win bC1x PLAYER2 = false ∧ check_win bC1x PLAYER1 = false ∧
    is_board_full bC1x = false ∧ winning_col bC1x 1 ∧
    (minimax 1 bC1x .negInf .posInf true).1.2 = some 2 ∧
    ¬ winning_col bC1x 2 := by decide

/-- C2: on every well-formed board satisfying the column-contiguity
invariant, `minimax` returns with the board cell-for-cell equal to its
state at entry, for all depths, alpha, beta and maximizing flags. -/
theorem claim2_theorem (b : Board) (hwf : WFBoard b) (hinv : ContigBoard b)
    (depth : Nat) (alpha beta : XInt) (maximizing : Bool) :
    (minimax depth b alpha beta maximizing).2 = b :=
  minimax_restore depth b alpha beta maximizing hwf hinv

/-- C2 witness: a concrete contiguous board at depth 2. -/
theorem claim2_witness :
    WFBoard bC1w ∧ ContigBoard bC1w ∧
      (minimax 2 bC1w .negInf .posInf true).2 = bC1w :=
  ⟨by decide, by decide, claim2_theorem bC1w (by decide) (by decide) 2 .negInf .posInf true⟩

/-- C3 (amended): the terminal checks of `minimax` run in the fixed
short-circuiting order (maximizer win, then minimizer win, then draw,
then depth 0), with exactly the claimed return values; wins at greater
remaining depth score strictly higher; but losses at greater remaining
depth score strictly LOWER (more negative), not less negative as the
original claim states — `-999999999 - depth` decreases in depth.  The
original direction is refuted by `claim3_counterexample`. -/
theorem claim3_theorem (b : Board) (d d1 d2 : Nat) (alpha beta : XInt) (m : Bool) :
    (check_win b PLAYER2 = true →
      minimax d b alpha beta m = ((.fin (999999999 + (d : Int)), none), b)) ∧
    (check_win b PLAYER2 = false → check_win b PLAYER1 = true →
      minimax d b alpha beta m = ((.fin (-999999999 - (d : Int)), none), b)) ∧
    (check_win b PLAYER2 = false → check_win b PLAYER1 = false → is_board_full b = true →
      minimax d b alpha beta m = ((.fin 0, none), b)) ∧
    (check_win b PLAYER2 = false → check_win b PLAYER1 = false → is_board_full b = false →
      minimax 0 b alpha beta m = ((.fin (evaluate_board b), none), b)) ∧
    (check_win b PLAYER2 = true → d2 < d1 →
      XInt.blt (minimax d2 b alpha beta m).1.1 (minimax d1 b alpha beta m).1.1 = true) ∧
    (check_win b PLAYER2 = false → check_win b PLAYER1 = true → d2 < d1 →
      XInt.blt (minimax d1 b alpha beta m).1.1 (minimax d2 b alpha beta m).1.1 = true) := by
  refine ⟨fun h2 => minimax_win2 h2 d alpha beta m,
    fun h2 h1 => minimax_win1 h2 h1 d alpha beta m,
    fun h2 h1 hf => minimax_draw h2 h1 hf d alpha beta m,
    fun h2 h1 hf => minimax_leaf h2 h1 hf alpha beta m,
    fun h2 hlt => ?_, fun h2 h1 hlt => ?_⟩
  · rw [minimax_win2 h2 d2 alpha beta m, minimax_win2 h2 d1 alpha beta m]
    show XInt.blt (.fin (999999999 + (d2 : Int))) (.fin (999999999 + (d1 : Int))) = true
    simp only [XInt.blt, decide_eq_true_eq]
    omega
  · rw [minimax_win1 h2 h1 d1 alpha beta m, minimax_win1 h2 h1 d2 alpha beta m]
    show XInt.blt (.fin (-999999999 - (d1 : Int))) (.fin (-999999999 - (d2 : Int))) = true
    simp only [XInt.blt, decide_eq_true_eq]
    omega

/-- C3 witness: a Player-Two-won board at depth 3 and a Player-One-won
board at depths 2 > 1. -/
theorem claim3_witness :
    check_win bWin PLAYER2 = true ∧
    minimax 3 bWin .negInf .posInf true = ((.fin (999999999 + ((3 : Nat) : Int)), none), bWin) ∧
    check_win bLoss PLAYER2 = false ∧ check_win bLoss PLAYER1 = true ∧
    XInt.blt (minimax 2 bLoss .negInf .posInf true).1.1
      (minimax 1 bLoss .negInf .posInf true).1.1 = true :=
  ⟨by decide,
    (claim3_theorem bWin 3 0 0 .negInf .posInf true).1 (by decide),
    by decide, by decide,
    (claim3_theorem bLoss 0 2 1 .negInf .posInf true).2.2.2.2.2 (by decide) (by decide)
      (by omega)⟩

/-- C3 counterexample: on a board already won by Player One, the score at
depth 2 is strictly more negative than at depth 1, so a loss at greater
depth does NOT score less negative as the original claim states. -/
theorem claim3_counterexample :
    check_win bLoss PLAYER1 = true ∧ check_win bLoss PLAYER2 = false ∧
    ¬ XInt.ble (minimax 1 bLoss .negInf .posInf true).1.1
      (minimax 2 bLoss .negInf .posInf true).1.1 = true := by decide

/-- C4: at every depth ≥ 1 (and in fact at every depth), whenever
`minimax` returns a column, that column is legal on the input board; and
when no legal column exists on the input board, the returned column is
`None`. -/
theorem claim4_theorem (b : Board) (d : Nat) (hd : 1 ≤ d) (alpha beta : XInt) (m : Bool) :
    (∀ c, (minimax d b alpha beta m).1.2 = some c → is_valid_move b c = true) ∧
    ((∀ c, c < 7 → is_valid_move b c = false) → (minimax d b alpha beta m).1.2 = none) := by
  constructor
  · intro c hc
    rcases minimax_col_legal d b alpha beta m with h | ⟨cb, hcb, hv⟩
    · rw [h] at hc
      exact absurd hc (by simp)
    · rw [hcb] at hc
      obtain rfl : cb = c := by simpa using hc
      exact hv
  · intro h
    exact minimax_no_valid h d alpha beta m

/-- C4 witness: at depth 1 on a concrete board the returned column 1 is
legal. -/
theorem claim4_witness :
    (minimax 1 bC1w .negInf .posInf true).1.2 = some 1 ∧ is_valid_move bC1w 1 = true :=
  ⟨by decide,
    (claim4_theorem bC1w 1 (by decide) .negInf .posInf true).1 1 (by decide)⟩

/-- C5: on every well-formed board satisfying the column-contiguity
invariant, dropping a player piece in a non-full column and then undoing
that column restores the board to bit-for-bit equality. -/
theorem claim5_theorem (b : Board) (hwf : WFBoard b) (hinv : ContigBoard b)
    (c : Nat) (hc : c < 7) (p : Nat) (hp : p = PLAYER1 ∨ p = PLAYER2)
    (hne : ∃ r, r < 6 ∧ getCell b r c = EMPTY) :
    undo_move (drop_piece b c p).2 c = b :=
  drop_undo_id hwf hinv hc (by rcases hp with rfl | rfl <;> decide) hne

/-- C5 witness: drop then undo on column 0 of a concrete board. -/
theorem claim5_witness :
    WFBoard bC1w ∧ ContigBoard bC1w ∧ (0 : Nat) < 7 ∧ getCell bC1w 0 0 = EMPTY ∧
      undo_move (drop_piece bC1w 0 PLAYER2).2 0 = bC1w :=
  ⟨by decide, by decide, by decide, by decide,
    claim5_theorem bC1w (by decide) (by decide) 0 (by decide) PLAYER2 (Or.inr rfl)
      ⟨0, by decide, by decide⟩⟩

/-- C6: on every well-formed board, dropping into a column with at least
one empty cell places the piece at the lowest empty row `r` of that
column and returns `r`: afterwards cell `(r, c)` holds the piece, no cell
below row `r` in column `c` is empty, and no other cell changes. -/
theorem claim6_theorem (b : Board) (hwf : WFBoard b) (c : Nat) (hc : c < 7) (p : Nat)
    (hne : ∃ r, r < 6 ∧ getCell b r c = EMPTY) :
    ∃ r, (drop_piece b c p).1 = some r ∧ getCell b r c = EMPTY ∧
      getCell (drop_piece b c p).2 r c = p ∧
      (∀ r', r < r' → r' < 6 → getCell (drop_piece b c p).2 r' c ≠ EMPTY) ∧
      (∀ r' c', ¬(r' = r ∧ c' = c) →
        getCell (drop_piece b c p).2 r' c' = getCell b r' c') := by
  obtain ⟨r0, hr0, hr0e⟩ := hne
  rcases hd : (drop_piece b c p).1 with _ | r
  · exact absurd hr0e (drop_piece_none hd r0 hr0)
  · obtain ⟨hr6, hre, hbelow, hb2⟩ := drop_piece_some hd
    refine ⟨r, rfl, hre, ?_, ?_, ?_⟩
    · rw [hb2]
      exact getCell_setCell_self hwf hr6 hc p
    · intro r' hgt hlt
      rw [hb2, getCell_setCell_ne (Or.inl (by omega)) p]
      exact hbelow r' hgt hlt
    · intro r' c' hne'
      rw [hb2]
      apply getCell_setCell_ne
      by_cases h1 : r' = r
      · exact Or.inr fun h2 => hne' ⟨h1, h2⟩
      · exact Or.inl h1

/-- C6 witness: dropping into column 2 of a concrete board lands at its
lowest empty row. -/
theorem claim6_witness :
    WFBoard bC1w ∧ (2 : Nat) < 7 ∧ getCell bC1w 0 2 = EMPTY ∧
      ∃ r, (drop_piece bC1w 2 PLAYER1).1 = some r ∧ getCell bC1w r 2 = EMPTY ∧
        getCell (drop_piece bC1w 2 PLAYER1).2 r 2 = PLAYER1 ∧
        (∀ r', r < r' → r' < 6 → getCell (drop_piece bC1w 2 PLAYER1).2 r' 2 ≠ EMPTY) ∧
        (∀ r' c', ¬(r' = r ∧ c' = 2) →
          getCell (drop_piece bC1w 2 PLAYER1).2 r' c' = getCell bC1w r' c') :=
  ⟨by decide, by decide, by decide,
    claim6_theorem bC1w (by decide) 2 (by decide) PLAYER1 ⟨0, by decide, by decide⟩⟩

/-- C7: `check_win` returns true exactly when four consecutive aligned
cells all hold the player, in one of the four orientations; in
particular the four example placements of the spec are detected. -/
theorem claim7_theorem :
    (∀ (b : Board) (p : Nat), check_win b p = true ↔ winSpec b p) ∧
    check_win exH PLAYER2 = true ∧ check_win exV PLAYER2 = true ∧
    check_win exD1 PLAYER2 = true ∧ check_win exD2 PLAYER2 = true :=
  ⟨check_win_iff, by decide, by decide, by decide, by decide⟩

/-- C8 (amended): `is_valid_move` performs no range check.  On a
well-formed board, for 0 ≤ col < 7 it returns whether the top cell of
column `col` is empty; for −7 ≤ col < 0 Python indexing aliases column
`col + 7`; for any other integer it raises `IndexError` (modelled as
`none`) instead of returning false.  The original claim (false for every
out-of-range column) is refuted by `claim8_counterexample`. -/
theorem claim8_theorem (b : Board) (hwf : WFBoard b) (col : Int) :
    (0 ≤ col → col < 7 →
      is_valid_move_py b col = some (is_valid_move b col.toNat)) ∧
    (-7 ≤ col → col < 0 →
      is_valid_move_py b col = some (is_valid_move b (col + 7).toNat)) ∧
    ((col < -7 ∨ 7 ≤ col) → is_valid_move_py b col = none) :=
  is_valid_move_py_spec hwf col

/-- C8 witness: the three regimes on the empty board. -/
theorem claim8_witness :
    WFBoard emptyBoard ∧
    is_valid_move_py emptyBoard 3 = some (is_valid_move emptyBoard (3 : Int).toNat) ∧
    is_valid_move_py emptyBoard (-2) =
      some (is_valid_move emptyBoard ((-2 : Int) + 7).toNat) ∧
    is_valid_move_py emptyBoard 9 = none :=
  ⟨by decide,
    (claim8_theorem emptyBoard (by decide) 3).1 (by decide) (by decide),
    (claim8_theorem emptyBoard (by decide) (-2)).2.1 (by decide) (by decide),
    (claim8_theorem emptyBoard (by decide) 9).2.2 (Or.inr (by decide))⟩

/-- C8 counterexample: on the empty board, `is_valid_move(-1)` returns
True (it aliases column 6), and `is_valid_move(7)` raises IndexError;
neither returns false as the original claim requires for columns outside
[0, 7). -/
theorem claim8_counterexample :
    is_valid_move_py emptyBoard (-1) = some true ∧
    is_valid_move_py emptyBoard 7 = none := by decide

/-- C9 (amended): on a well-formed board, `drop_piece` on a full in-range
column silently returns `None` with the board unchanged (no error is
raised), and on a column outside Python's indexable range [−7, 7) it
raises `IndexError` with the board unchanged.  The original claim (an
IllegalMoveError result on a full column) is refuted by
`claim9_counterexample`. -/
theorem claim9_theorem (b : Board) (hwf : WFBoard b) (col : Int) (p : Nat) :
    ((col < -7 ∨ 7 ≤ col) → drop_piece_py b col p = none) ∧
    (0 ≤ col → col < 7 → (∀ r, r < 6 → getCell b r col.toNat ≠ EMPTY) →
      drop_piece_py b col p = some (none, b)) :=
  ⟨fun h => drop_piece_py_oob hwf h p,
    fun h0 h7 hf => drop_piece_py_full hwf p h0 h7 hf⟩

/-- C9 witness: the full column 0 of `bFullCol` and the out-of-range
column 9. -/
theorem claim9_witness :
    WFBoard bFullCol ∧
    drop_piece_py bFullCol 0 PLAYER1 = some (none, bFullCol) ∧
    drop_piece_py bFullCol 9 PLAYER1 = none :=
  ⟨by decide,
    (claim9_theorem bFullCol (by decide) 0 PLAYER1).2 (by decide) (by decide) (by decide),
    (claim9_theorem bFullCol (by decide) 9 PLAYER1).1 (Or.inr (by decide))⟩

/-- C9 counterexample: column 0 of `bFullCol` is full, yet `drop_piece`
returns normally (`None`, board unchanged) instead of failing with an
error. -/
theorem claim9_counterexample :
    (∀ r, r < 6 → getCell bFullCol r 0 ≠ EMPTY) ∧
    drop_piece_py bFullCol 0 PLAYER1 = some (none, bFullCol) := by decide

/-- C10 (amended): because `ai_move` reseeds the global random generator
with the constant 42 on every call, its result is independent of the
incoming generator state for every difficulty, and in easy mode it is
additionally independent of the wall clock; in medium/hard mode the
result may depend on the wall-clock oracle consulted by the
iterative-deepening loop, so the original unconditional determinism claim
is refuted by `claim10_counterexample`. -/
theorem claim10_theorem {σ : Type} (g : RandGen σ) (oracle o1 o2 : Nat → ℤ)
    (s1 s2 : σ) (b : Board) (difficulty : Difficulty) (player : Nat) :
    ai_move g oracle s1 b difficulty player = ai_move g oracle s2 b difficulty player ∧
    ai_move g o1 s1 b .easy player = ai_move g o2 s2 b .easy player :=
  ⟨rfl, rfl⟩

/-- C10 counterexample: on the same board, difficulty (medium) and
player, two wall-clock behaviours (timing out before depth 2 versus
before depth 3) make `ai_move` return different columns, so `ai_move` is
not a function of board, difficulty and player alone. -/
theorem claim10_counterexample :
    (ai_move g0 (fun k => if k ≤ 1 then (0 : Int) else 10) () bC10 .medium PLAYER2).1 =
      some 2 ∧
    (ai_move g0 (fun k => if k ≤ 2 then (0 : Int) else 10) () bC10 .medium PLAYER2).1 =
      some 4 := by decide

end Connect4
